import Mathlib

/-!
Verification of the extractive news summarizer (src/news_summarizer.py).

Strings are modelled as `List Char`.  The Python functions `clean_text`,
`simple_tokenize` and `summarize_text` are embedded as executable Lean
functions over this representation:

* `' '.join(text.split())` is `joinSpace (splitWs s)` — Python's
  argumentless `str.split` splits on whitespace runs and drops empty pieces;
* `re.sub(r'[^\w\s.!?]', '', text)` is `List.filter isKeptChar`
  (ASCII reading of the character classes);
* `re.split(r'(?<=[.!?])\s+', text)` is `splitSent`, a left-to-right scan
  that splits after a terminal punctuation character followed by a
  whitespace run, consuming the run;
* Python dicts (insertion ordered) are association lists updated in place,
  and `sorted(..., key=score, reverse=True)` is a stable insertion sort
  descending on the score.

The NLTK stopword resource is external to the repository, so the stopword
set is a parameter; `stopRes : Except Unit (List (List Char))` models the
single fallible step of the scored path (line 53 of the source:
`stopwords.words('english')`), `.error` meaning the resource raised.
-/

/-- Python `str.isspace` on the ASCII range (space, tab, newline,
carriage return, vertical tab, form feed). -/
def isSpace (c : Char) : Bool :=
  c = ' ' || c = '\t' || c = '\n' || c = '\r' || c.val = 11 || c.val = 12

/-- Membership in the regex class `\w` (ASCII reading). -/
def isWordChar (c : Char) : Bool := c.isAlphanum || c = '_'

/-- Sentence-terminal punctuation of the tokenizer regex `[.!?]`. -/
def isTerm (c : Char) : Bool := c = '.' || c = '!' || c = '?'

/-- Characters kept by `re.sub(r'[^\w\s.!?]', '', text)`. -/
def isKeptChar (c : Char) : Bool := isWordChar c || isSpace c || isTerm c

/-- Accumulator loop of `splitWs`; `acc` is the current word, reversed. -/
def splitWsAux : List Char → List Char → List (List Char)
  | [], acc => if acc.isEmpty then [] else [acc.reverse]
  | c :: rest, acc =>
    if isSpace c then
      if acc.isEmpty then splitWsAux rest [] else acc.reverse :: splitWsAux rest []
    else splitWsAux rest (c :: acc)

/-- Python `text.split()`: maximal non-whitespace runs, in order. -/
def splitWs (s : List Char) : List (List Char) := splitWsAux s []

/-- Python `' '.join(pieces)`. -/
def joinSpace : List (List Char) → List Char
  | [] => []
  | [w] => w
  | w :: ws => w ++ ' ' :: joinSpace ws

/-- `clean_text` (source lines 31-35): collapse whitespace by
`' '.join(text.split())`, then delete every character outside
`\w`, `\s`, `.`, `!`, `?`. -/
def clean_text (s : List Char) : List Char :=
  (joinSpace (splitWs s)).filter isKeptChar

/-- Scanner for `re.split(r'(?<=[.!?])\s+', text)`.

Arguments: remaining input, previous character, current piece so far
(reversed, excluding `prev`), and a flag that is `true` while a
whitespace run consumed by the split is being skipped. -/
def splitLoop : List Char → Char → List Char → Bool → List (List Char)
  | [], _, _, true => [[]]
  | [], prev, acc, false => [(prev :: acc).reverse]
  | d :: rest, _, _, true =>
    if isSpace d then splitLoop rest d [] true
    else splitLoop rest d [] false
  | d :: rest, prev, acc, false =>
    if isTerm prev && isSpace d then
      (prev :: acc).reverse :: splitLoop rest d [] true
    else splitLoop rest d (prev :: acc) false

/-- `re.split(r'(?<=[.!?])\s+', text)`: split at each whitespace run
immediately preceded by `.`, `!` or `?`; the run is consumed and the
punctuation stays attached to the preceding piece. -/
def splitSent : List Char → List (List Char)
  | [] => [[]]
  | c :: rest => splitLoop rest c [] false

/-- Python `str.strip()` (whitespace on both ends). -/
def stripChars (l : List Char) : List Char :=
  ((l.dropWhile isSpace).reverse.dropWhile isSpace).reverse

/-- `simple_tokenize` (source lines 37-41): clean, split into
sentences, strip each piece, drop empty pieces. -/
def simple_tokenize (s : List Char) : List (List Char) :=
  ((splitSent (clean_text s)).map stripChars).filter (fun p => !p.isEmpty)

/-- Python `str.lower()` (ASCII). -/
def lowerStr (l : List Char) : List Char := l.map Char.toLower

/-- Python `str.isalnum()`: non-empty and every character alphanumeric
(the underscore does not qualify). -/
def isAlnumStr (w : List Char) : Bool := !w.isEmpty && w.all Char.isAlphanum

/-- `word_freq[word] = word_freq.get(word, 0) + 1` on an
insertion-ordered association list. -/
def bumpFreq (w : List Char) : List (List Char × Nat) → List (List Char × Nat)
  | [] => [(w, 1)]
  | (k, v) :: rest => if k = w then (k, v + 1) :: rest else (k, v) :: bumpFreq w rest

/-- The word-frequency loop of `summarize_text` (source lines 57-59):
count every lowercased whitespace token of the cleaned text that is
entirely alphanumeric and not a stopword. -/
def buildFreq (stop : List (List Char)) (tokens : List (List Char)) :
    List (List Char × Nat) :=
  tokens.foldl
    (fun tbl w => if isAlnumStr w && !stop.contains w then bumpFreq w tbl else tbl) []

/-- Dict lookup `tbl[k]` / `k in tbl` on an association list. -/
def lookupTbl (k : List Char) : List (List Char × Nat) → Option Nat
  | [] => none
  | (x, v) :: rest => if x = k then some v else lookupTbl k rest

/-- `sent_scores[sent] = sent_scores.get(sent, 0) + d` on an
insertion-ordered association list. -/
def addScore (s : List Char) (d : Nat) : List (List Char × Nat) → List (List Char × Nat)
  | [] => [(s, d)]
  | (k, v) :: rest => if k = s then (k, v + d) :: rest else (k, v) :: addScore s d rest

/-- Inner loop of the sentence-scoring pass: for each lowercased
whitespace token of the sentence that is a key of `freq`, add its
frequency to the sentence's score. -/
def scoreWords (freq : List (List Char × Nat)) (s : List Char)
    (tbl : List (List Char × Nat)) : List (List Char × Nat) :=
  (splitWs (lowerStr s)).foldl
    (fun t w =>
      match lookupTbl w freq with
      | some f => addScore s f t
      | none => t) tbl

/-- The sentence-scoring loop of `summarize_text` (source lines 62-66). -/
def buildScores (freq : List (List Char × Nat)) (sents : List (List Char)) :
    List (List Char × Nat) :=
  sents.foldl (fun tbl s => scoreWords freq s tbl) []

/-- Insert an entry before the first strictly lower-scored entry
(after all entries scoring at least as much): one step of the stable
descending sort. -/
def insertDesc (x : List Char × Nat) : List (List Char × Nat) → List (List Char × Nat)
  | [] => [x]
  | y :: ys => if y.2 ≤ x.2 then x :: y :: ys else y :: insertDesc x ys

/-- `sorted(items, key=score, reverse=True)`: stable sort, score
descending, ties kept in insertion order. -/
def sortScores : List (List Char × Nat) → List (List Char × Nat)
  | [] => []
  | x :: xs => insertDesc x (sortScores xs)

/-- The word-frequency table `summarize_text` builds for raw text `t`
(the tokens come from the cleaned text, lowercased). -/
def wordFreqOf (stop : List (List Char)) (t : List Char) : List (List Char × Nat) :=
  buildFreq stop (splitWs (lowerStr (clean_text t)))

/-- The sentence-score table `summarize_text` builds for raw text `t`. -/
def sentScoresOf (stop : List (List Char)) (t : List Char) : List (List Char × Nat) :=
  buildScores (wordFreqOf stop t) (simple_tokenize (clean_text t))

/-- `summarize_text` (source lines 43-77).  Inside the `try` block the
variable `text` has already been rebound to `clean_text(text)` before
the only fallible step (fetching the stopword list), so both the
shortcut test and the exception fallback work on
`simple_tokenize(clean_text(t))`. -/
def summarize_text (stopRes : Except Unit (List (List Char))) (t : List Char)
    (n : Nat) : List Char :=
  if (simple_tokenize (clean_text t)).length ≤ n then clean_text t
  else
    match stopRes with
    | .error _ => joinSpace ((simple_tokenize (clean_text t)).take n)
    | .ok stop =>
      joinSpace (((sortScores (sentScoresOf stop t)).take n).map Prod.fst)

/-- The list of sentences whose space-join `summarize_text` returns
(on the shortcut path the cleaned text itself is the single "sentence"). -/
def selectedSents (stopRes : Except Unit (List (List Char))) (t : List Char)
    (n : Nat) : List (List Char) :=
  if (simple_tokenize (clean_text t)).length ≤ n then [clean_text t]
  else
    match stopRes with
    | .error _ => (simple_tokenize (clean_text t)).take n
    | .ok stop => ((sortScores (sentScoresOf stop t)).take n).map Prod.fst

/-- Shorthand for the whitespace-collapsing first step of `clean_text`
(`' '.join(text.split())`). -/
def collapseWs (s : List Char) : List Char := joinSpace (splitWs s)

/-- No position of the list is a split point of the tokenizer regex:
no character in `.!?` is immediately followed by a whitespace character. -/
def noSplitPoint : List Char → Bool
  | c :: d :: rest => !(isTerm c && isSpace d) && noSplitPoint (d :: rest)
  | _ => true

/-- `ChunksOk u ps` says `ps` decomposes `u` exactly as
`re.split(r'(?<=[.!?])\s+', u)` must: consecutive pieces are separated by
a non-empty whitespace run that immediately follows a terminal
punctuation character ending the earlier piece, the run is maximal (the
next piece does not begin with whitespace), and no piece contains a
split point of its own. -/
def ChunksOk : List Char → List (List Char) → Prop
  | u, [p] => u = p ∧ noSplitPoint p = true
  | u, p :: q :: ps =>
      noSplitPoint p = true ∧
      (∃ c, p.getLast? = some c ∧ isTerm c = true) ∧
      ∃ w rest, u = p ++ w ++ rest ∧ w ≠ [] ∧ (∀ c ∈ w, isSpace c = true) ∧
        (∀ c, rest.head? = some c → isSpace c = false) ∧
        ChunksOk rest (q :: ps)
  | _, [] => False

/-- The last character of a word is terminal punctuation. -/
def endsTerm (b : List Char) : Bool :=
  match b.getLast? with
  | some c => isTerm c
  | none => false

/-- Number of sentence groups determined by the word sequence alone:
one group starts at the first word, and a new group starts after every
word that ends in terminal punctuation (except the last). -/
def groupCount : List (List Char) → Nat
  | [] => 0
  | [_] => 1
  | b :: c :: bs => (if endsTerm b then 1 else 0) + groupCount (c :: bs)

/-- Number of sentences the tokenizer finds in an already-supplied
string (before the extra cleaning `simple_tokenize` performs). -/
def sentCount (s : List Char) : Nat :=
  (((splitSent s).map stripChars).filter (fun p => !p.isEmpty)).length

/-- Total frequency mass of a sentence: the sum over its lowercased
whitespace tokens of their frequency (0 for tokens not in the table). -/
def singleScore (freq : List (List Char × Nat)) (s : List Char) : Nat :=
  ((splitWs (lowerStr s)).map (fun w => (lookupTbl w freq).getD 0)).sum

/-- Every whitespace character of the list is a single `' '` wedged
between non-whitespace characters (checked pairwise). -/
def pairOk : List Char → Bool
  | c :: d :: rest => (!isSpace c || (c = ' ' && !isSpace d)) && pairOk (d :: rest)
  | _ => true

/-- Some character is immediately followed by another whitespace
character (the list has a run of two or more whitespace characters). -/
def hasConsecWs : List Char → Bool
  | c :: d :: rest => (isSpace c && isSpace d) || hasConsecWs (d :: rest)
  | _ => false

/-- String literal to character list, for concrete inputs. -/
def lc (s : String) : List Char := s.toList

/-- The worked example input of the specification. -/
def exText : List Char := lc "The cat sat. The cat ran fast. Dogs bark loudly at night."

/-- A minimal stopword set for the worked example: the example only
relies on "the" and "at" being stopwords. -/
def exS : List (List Char) := [lc "the", lc "at"]

/-! ### Basic facts about `splitWs` and `joinSpace` -/

theorem splitWsAux_blocks (s : List Char) :
    ∀ acc, (∀ c ∈ acc, isSpace c = false) →
      ∀ b ∈ splitWsAux s acc, b ≠ [] ∧ ∀ c ∈ b, isSpace c = false := by
  induction s with
  | nil =>
    intro acc hacc b hb
    cases acc with
    | nil => simp [splitWsAux] at hb
    | cons a l =>
      simp [splitWsAux] at hb
      subst hb
      refine ⟨by simp, fun c hc => hacc c ?_⟩
      rw [← List.reverse_cons] at hc
      exact List.mem_reverse.mp hc
  | cons c rest ih =>
    intro acc hacc b hb
    by_cases hc : isSpace c = true
    · cases acc with
      | nil =>
        simp [splitWsAux, hc] at hb
        exact ih [] (by simp) b hb
      | cons a l =>
        simp [splitWsAux, hc] at hb
        rcases hb with hb | hb
        · subst hb
          refine ⟨by simp, fun x hx => hacc x ?_⟩
          rw [← List.reverse_cons] at hx
          exact List.mem_reverse.mp hx
        · exact ih [] (by simp) b hb
    · rw [Bool.not_eq_true] at hc
      simp only [splitWsAux, hc, Bool.false_eq_true, if_false] at hb
      refine ih (c :: acc) ?_ b hb
      intro x hx
      rcases List.mem_cons.mp hx with h | h
      · subst h; exact hc
      · exact hacc x h

theorem splitWs_blocks (s : List Char) :
    ∀ b ∈ splitWs s, b ≠ [] ∧ ∀ c ∈ b, isSpace c = false :=
  splitWsAux_blocks s [] (by simp)

theorem splitWsAux_mem_chars (s : List Char) :
    ∀ acc b c, b ∈ splitWsAux s acc → c ∈ b → c ∈ s ∨ c ∈ acc := by
  induction s with
  | nil =>
    intro acc b c hb hc
    cases acc with
    | nil => simp [splitWsAux] at hb
    | cons a l =>
      simp [splitWsAux] at hb
      subst hb
      refine Or.inr ?_
      rw [← List.reverse_cons] at hc
      exact List.mem_reverse.mp hc
  | cons x rest ih =>
    intro acc b c hb hc
    by_cases hx : isSpace x = true
    · cases acc with
      | nil =>
        simp [splitWsAux, hx] at hb
        rcases ih [] b c hb hc with h | h
        · exact Or.inl (List.mem_cons_of_mem x h)
        · simp at h
      | cons a l =>
        simp [splitWsAux, hx] at hb
        rcases hb with hb | hb
        · subst hb
          refine Or.inr ?_
          rw [← List.reverse_cons] at hc
          exact List.mem_reverse.mp hc
        · rcases ih [] b c hb hc with h | h
          · exact Or.inl (List.mem_cons_of_mem x h)
          · simp at h
    · rw [Bool.not_eq_true] at hx
      simp only [splitWsAux, hx, Bool.false_eq_true, if_false] at hb
      rcases ih (x :: acc) b c hb hc with h | h
      · exact Or.inl (List.mem_cons_of_mem x h)
      · rcases List.mem_cons.mp h with h | h
        · rw [h]; exact Or.inl (List.mem_cons_self x rest)
        · exact Or.inr h

theorem splitWsAux_absorb (B : List Char) :
    ∀ s acc, (∀ c ∈ B, isSpace c = false) →
      splitWsAux (B ++ s) acc = splitWsAux s (B.reverse ++ acc) := by
  induction B with
  | nil => intro s acc _; simp
  | cons c B ih =>
    intro s acc hB
    have hc : isSpace c = false := hB c (List.mem_cons_self c B)
    have hrec := ih s (c :: acc) (fun y hy => hB y (List.mem_cons_of_mem c hy))
    have h1 : (c :: B) ++ s = c :: (B ++ s) := rfl
    rw [h1]
    show splitWsAux (c :: (B ++ s)) acc = _
    simp only [splitWsAux, hc, Bool.false_eq_true, if_false]
    rw [hrec]
    simp

theorem splitWs_ws_left (w : List Char) :
    ∀ s, (∀ c ∈ w, isSpace c = true) → splitWs (w ++ s) = splitWs s := by
  induction w with
  | nil => intro s _; simp
  | cons c w ih =>
    intro s hw
    have hc : isSpace c = true := hw c (List.mem_cons_self c w)
    show splitWsAux (c :: (w ++ s)) [] = splitWs s
    simp only [splitWsAux, hc, if_true, List.isEmpty_nil]
    exact ih s (fun x hx => hw x (List.mem_cons_of_mem c hx))

theorem splitWs_block (B : List Char) (hB : B ≠ [])
    (hns : ∀ c ∈ B, isSpace c = false) : splitWs B = [B] := by
  show splitWsAux B [] = [B]
  have h := splitWsAux_absorb B [] [] hns
  rw [List.append_nil] at h
  rw [h]
  simp [splitWsAux, hB]

theorem splitWs_block_ws (B s : List Char) (hB : B ≠ [])
    (hns : ∀ c ∈ B, isSpace c = false)
    (hs : ∀ c, s.head? = some c → isSpace c = true) :
    splitWs (B ++ s) = B :: splitWs s := by
  show splitWsAux (B ++ s) [] = _
  rw [splitWsAux_absorb B s [] hns, List.append_nil]
  cases s with
  | nil => simp [splitWsAux, splitWs, splitWsAux, hB]
  | cons c rest =>
    have hc : isSpace c = true := hs c rfl
    have hBrev : B.reverse.isEmpty = false := by
      cases hb2 : B.reverse with
      | nil => exact absurd (by simpa using hb2) hB
      | cons a l => rfl
    show splitWsAux (c :: rest) B.reverse = B :: splitWs (c :: rest)
    simp only [splitWsAux, hc, if_true, hBrev, Bool.false_eq_true, if_false,
      List.reverse_reverse]
    rw [show splitWs (c :: rest) = splitWs rest from
      splitWs_ws_left [c] rest (by intro x hx; simp at hx; subst hx; exact hc)]
    rfl

theorem splitWs_joinSpace (ps : List (List Char))
    (h : ∀ b ∈ ps, b ≠ [] ∧ ∀ c ∈ b, isSpace c = false) :
    splitWs (joinSpace ps) = ps := by
  induction ps with
  | nil => rfl
  | cons p ps ih =>
    cases ps with
    | nil =>
      have hp := h p (List.mem_cons_self p [])
      show splitWs p = [p]
      exact splitWs_block p hp.1 hp.2
    | cons q qs =>
      have hp := h p (List.mem_cons_self p _)
      rw [show joinSpace (p :: q :: qs) = p ++ ' ' :: joinSpace (q :: qs) from rfl]
      rw [splitWs_block_ws p (' ' :: joinSpace (q :: qs)) hp.1 hp.2
        (fun c hc => by simp at hc; subst hc; decide)]
      rw [show (' ' :: joinSpace (q :: qs)) = [' '] ++ joinSpace (q :: qs) from rfl]
      rw [splitWs_ws_left [' '] _ (by intro c hc; simp at hc; subst hc; decide)]
      rw [ih (fun b hb => h b (List.mem_cons_of_mem p hb))]

theorem joinSpace_mem (ps : List (List Char)) (c : Char) :
    c ∈ joinSpace ps → c = ' ' ∨ ∃ b ∈ ps, c ∈ b := by
  induction ps with
  | nil => intro hc; simp [joinSpace] at hc
  | cons p ps ih =>
    intro hc
    cases ps with
    | nil => exact Or.inr ⟨p, List.mem_cons_self p [], hc⟩
    | cons q qs =>
      rw [show joinSpace (p :: q :: qs) = p ++ ' ' :: joinSpace (q :: qs) from rfl] at hc
      rcases List.mem_append.mp hc with h | h
      · exact Or.inr ⟨p, List.mem_cons_self _ _, h⟩
      · rcases List.mem_cons.mp h with h | h
        · exact Or.inl h
        · rcases ih h with h | ⟨b, hb, hcb⟩
          · exact Or.inl h
          · exact Or.inr ⟨b, List.mem_cons_of_mem _ hb, hcb⟩

theorem collapseWs_mem (s : List Char) (c : Char) (hc : c ∈ collapseWs s) :
    c = ' ' ∨ c ∈ s := by
  rcases joinSpace_mem _ c hc with h | ⟨b, hb, hcb⟩
  · exact Or.inl h
  · rcases splitWsAux_mem_chars s [] b c hb hcb with h | h
    · exact Or.inr h
    · simp at h

theorem collapseWs_idem (s : List Char) : collapseWs (collapseWs s) = collapseWs s := by
  show joinSpace (splitWs (joinSpace (splitWs s))) = _
  rw [splitWs_joinSpace (splitWs s) (splitWs_blocks s)]
  rfl

theorem clean_text_twice (t : List Char) :
    clean_text (clean_text t) = collapseWs (clean_text t) := by
  show (collapseWs (clean_text t)).filter isKeptChar = collapseWs (clean_text t)
  apply List.filter_eq_self.mpr
  intro a ha
  rcases collapseWs_mem _ a ha with h | h
  · subst h; decide
  · exact (List.mem_filter.mp h).2

/-! ### Facts about the sentence-splitting scan `splitLoop` -/

theorem splitLoop_first (s : List Char) :
    ∀ prev, ∃ t ps, ∀ acc, splitLoop s prev acc false = (acc.reverse ++ prev :: t) :: ps := by
  induction s with
  | nil =>
    intro prev
    exact ⟨[], [], fun acc => by simp [splitLoop]⟩
  | cons d rest ih =>
    intro prev
    by_cases h : (isTerm prev && isSpace d) = true
    · refine ⟨[], splitLoop rest d [] true, fun acc => ?_⟩
      simp [splitLoop, h]
    · rw [Bool.not_eq_true] at h
      rcases ih d with ⟨t, ps, hps⟩
      refine ⟨d :: t, ps, fun acc => ?_⟩
      rw [show splitLoop (d :: rest) prev acc false =
        splitLoop rest d (prev :: acc) false from by simp [splitLoop, h]]
      rw [hps (prev :: acc)]
      simp

theorem splitLoop_carry_nil (p : List Char) :
    ∀ prev acc, noSplitPoint (prev :: p) = true →
      splitLoop p prev acc false = [acc.reverse ++ prev :: p] := by
  induction p with
  | nil => intro prev acc _; simp [splitLoop]
  | cons c p2 ih =>
    intro prev acc h
    have h0 : (!(isTerm prev && isSpace c)) = true := ((Bool.and_eq_true _ _).mp h).1
    have h1 : (isTerm prev && isSpace c) = false := by
      cases hb : (isTerm prev && isSpace c)
      · rfl
      · rw [hb] at h0; simp at h0
    have h2 : noSplitPoint (c :: p2) = true := ((Bool.and_eq_true _ _).mp h).2
    rw [show splitLoop (c :: p2) prev acc false =
      splitLoop p2 c (prev :: acc) false from by simp [splitLoop, h1]]
    rw [ih c (prev :: acc) h2]
    simp

theorem splitLoop_carry (p : List Char) :
    ∀ prev acc d rest, noSplitPoint ((prev :: p) ++ [d]) = true →
      splitLoop (p ++ d :: rest) prev acc false =
        splitLoop rest d ((prev :: p).reverse ++ acc) false := by
  induction p with
  | nil =>
    intro prev acc d rest h
    have h0 : (!(isTerm prev && isSpace d)) = true := ((Bool.and_eq_true _ _).mp h).1
    have h1 : (isTerm prev && isSpace d) = false := by
      cases hb : (isTerm prev && isSpace d)
      · rfl
      · rw [hb] at h0; simp at h0
    simp [splitLoop, h1]
  | cons c p2 ih =>
    intro prev acc d rest h
    have h0 : (!(isTerm prev && isSpace c)) = true := ((Bool.and_eq_true _ _).mp h).1
    have h1 : (isTerm prev && isSpace c) = false := by
      cases hb : (isTerm prev && isSpace c)
      · rfl
      · rw [hb] at h0; simp at h0
    have h2 : noSplitPoint ((c :: p2) ++ [d]) = true := ((Bool.and_eq_true _ _).mp h).2
    rw [show ((c :: p2) ++ d :: rest : List Char) = c :: (p2 ++ d :: rest) from rfl]
    rw [show splitLoop (c :: (p2 ++ d :: rest)) prev acc false =
      splitLoop (p2 ++ d :: rest) c (prev :: acc) false from by simp [splitLoop, h1]]
    rw [ih c (prev :: acc) d rest h2]
    simp

theorem splitLoop_skip (w : List Char) :
    ∀ prev rest, (∀ c ∈ w, isSpace c = true) →
      (∀ c, rest.head? = some c → isSpace c = false) →
      splitLoop (w ++ rest) prev [] true =
        match rest with
        | [] => [[]]
        | c :: rest2 => splitLoop rest2 c [] false := by
  induction w with
  | nil =>
    intro prev rest _ hrest
    cases rest with
    | nil => rfl
    | cons c rest2 =>
      have hc : isSpace c = false := hrest c rfl
      simp [splitLoop, hc]
  | cons e w ih =>
    intro prev rest hw hrest
    have he : isSpace e = true := hw e (List.mem_cons_self _ _)
    rw [show ((e :: w) ++ rest : List Char) = e :: (w ++ rest) from rfl]
    rw [show splitLoop (e :: (w ++ rest)) prev [] true =
      splitLoop (w ++ rest) e [] true from by simp [splitLoop, he]]
    exact ih e rest (fun c hc => hw c (List.mem_cons_of_mem _ hc)) hrest

/-! ### Facts about `stripChars` -/

theorem dropWhile_head_not (p : Char → Bool) (l : List Char) :
    ∀ c, (l.dropWhile p).head? = some c → p c = false := by
  induction l with
  | nil => intro c h; simp at h
  | cons a l ih =>
    intro c h
    rw [List.dropWhile_cons] at h
    by_cases ha : p a = true
    · rw [if_pos ha] at h; exact ih c h
    · rw [if_neg ha] at h
      simp at h
      rw [Bool.not_eq_true] at ha
      exact h ▸ ha

theorem mem_dropWhile_not (p : Char → Bool) (l : List Char) (c : Char)
    (hc : c ∈ l) (hpc : p c = false) : c ∈ l.dropWhile p := by
  induction l with
  | nil => simp at hc
  | cons a l ih =>
    rw [List.dropWhile_cons]
    by_cases ha : p a = true
    · rw [if_pos ha]
      rcases List.mem_cons.mp hc with h | h
      · rw [h] at hpc; rw [hpc] at ha; cases ha
      · exact ih h
    · rw [if_neg ha]; exact hc

theorem dropWhile_all_append (p : Char → Bool) (w l : List Char)
    (hw : ∀ c ∈ w, p c = true) : (w ++ l).dropWhile p = l.dropWhile p := by
  induction w with
  | nil => rfl
  | cons a w ih =>
    rw [show ((a :: w) ++ l : List Char) = a :: (w ++ l) from rfl, List.dropWhile_cons,
      if_pos (hw a (List.mem_cons_self _ _))]
    exact ih (fun c hc => hw c (List.mem_cons_of_mem _ hc))

theorem dropWhile_all_neg (q : Char → Bool) (l : List Char)
    (h : ∀ c ∈ l, q c = false) : l.dropWhile q = l := by
  cases l with
  | nil => rfl
  | cons a l =>
    rw [List.dropWhile_cons, if_neg (by simp [h a (List.mem_cons_self _ _)])]

theorem dropWhile_append_of_ne_nil (q : Char → Bool) (xs ys : List Char) :
    xs.dropWhile q ≠ [] → (xs ++ ys).dropWhile q = xs.dropWhile q ++ ys := by
  induction xs with
  | nil => intro h; exact absurd rfl h
  | cons a xs ih =>
    intro h
    rw [show ((a :: xs) ++ ys : List Char) = a :: (xs ++ ys) from rfl]
    simp only [List.dropWhile_cons] at h ⊢
    by_cases ha : q a = true
    · simp only [if_pos ha] at h ⊢; exact ih h
    · simp only [if_neg ha] at h ⊢; rfl

theorem stripChars_ne_nil (l : List Char) (c : Char) (hc : c ∈ l)
    (hcs : isSpace c = false) : stripChars l ≠ [] := by
  have h1 : c ∈ l.dropWhile isSpace := mem_dropWhile_not _ _ _ hc hcs
  have h2 : c ∈ (l.dropWhile isSpace).reverse := List.mem_reverse.mpr h1
  have h3 : c ∈ (l.dropWhile isSpace).reverse.dropWhile isSpace :=
    mem_dropWhile_not _ _ _ h2 hcs
  intro hnil
  unfold stripChars at hnil
  rw [List.reverse_eq_nil_iff] at hnil
  rw [hnil] at h3
  simp at h3

theorem stripChars_ws_left (w p : List Char) (hw : ∀ c ∈ w, isSpace c = true) :
    stripChars (w ++ p) = stripChars p := by
  unfold stripChars
  rw [dropWhile_all_append isSpace w p hw]

theorem stripChars_append_ws (p w : List Char) (hw : ∀ c ∈ w, isSpace c = true) :
    stripChars (p ++ w) = stripChars p := by
  unfold stripChars
  rcases hm : p.dropWhile isSpace with _ | ⟨a, m⟩
  · have hp : ∀ c ∈ p, isSpace c = true := List.dropWhile_eq_nil_iff.mp hm
    have hall : (p ++ w).dropWhile isSpace = [] := by
      rw [List.dropWhile_eq_nil_iff]
      intro c hc
      rcases List.mem_append.mp hc with h | h
      · exact hp c h
      · exact hw c h
    rw [hall]
  · have hne : p.dropWhile isSpace ≠ [] := by rw [hm]; simp
    rw [dropWhile_append_of_ne_nil isSpace p w hne, hm, List.reverse_append]
    rw [dropWhile_all_append isSpace w.reverse (a :: m).reverse
      (fun c hc => hw c (List.mem_reverse.mp hc))]

theorem stripChars_no_ws (B : List Char) (h : ∀ c ∈ B, isSpace c = false) :
    stripChars B = B := by
  unfold stripChars
  rw [dropWhile_all_neg isSpace B h,
    dropWhile_all_neg isSpace B.reverse (fun c hc => h c (List.mem_reverse.mp hc)),
    List.reverse_reverse]

theorem stripChars_head_not (l : List Char) (c : Char)
    (h : (stripChars l).head? = some c) : isSpace c = false := by
  unfold stripChars at h
  rw [List.head?_reverse] at h
  have hz : (l.dropWhile isSpace).reverse.dropWhile isSpace ≠ [] := by
    intro hnil
    rw [hnil] at h
    simp at h
  have hsplit := List.takeWhile_append_dropWhile isSpace (l.dropWhile isSpace).reverse
  have hlast : (l.dropWhile isSpace).reverse.getLast? = some c := by
    conv_lhs => rw [← hsplit]
    rw [List.getLast?_append]
    rw [h]
    rfl
  rw [List.getLast?_reverse] at hlast
  exact dropWhile_head_not isSpace l c hlast

theorem stripChars_getLast_not (l : List Char) (c : Char)
    (h : (stripChars l).getLast? = some c) : isSpace c = false := by
  unfold stripChars at h
  rw [List.getLast?_reverse] at h
  exact dropWhile_head_not isSpace _ c h

/-! ### Character-class and `noSplitPoint` helpers -/

theorem ws_not_term (c : Char) (h : isSpace c = true) : isTerm c = false := by
  cases ht : isTerm c
  · rfl
  · exfalso
    have hdot : c = '.' ∨ c = '!' ∨ c = '?' := by
      by_contra hcon
      push_neg at hcon
      have hf : isTerm c = false := by
        unfold isTerm
        simp [hcon.1, hcon.2.1, hcon.2.2]
      rw [hf] at ht
      exact Bool.noConfusion ht
    rcases hdot with h1 | h1 | h1 <;> subst h1 <;> exact absurd h (by decide)

theorem noSplitPoint_iff_chain (l : List Char) :
    noSplitPoint l = true ↔
      List.Chain' (fun x y => (!(isTerm x && isSpace y)) = true) l := by
  match l with
  | [] => simp [noSplitPoint]
  | [c] => simp [noSplitPoint]
  | c :: d :: rest =>
    rw [show noSplitPoint (c :: d :: rest) =
      ((!(isTerm c && isSpace d)) && noSplitPoint (d :: rest)) from rfl]
    rw [Bool.and_eq_true, List.chain'_cons, noSplitPoint_iff_chain (d :: rest)]

theorem noSplitPoint_of_nonws_tail (l : List Char)
    (h : ∀ c ∈ l.tail, isSpace c = false) : noSplitPoint l = true := by
  match l with
  | [] => rfl
  | [c] => rfl
  | c :: d :: rest =>
    have hd : isSpace d = false := h d (List.mem_cons_self _ _)
    rw [show noSplitPoint (c :: d :: rest) =
      ((!(isTerm c && isSpace d)) && noSplitPoint (d :: rest)) from rfl]
    rw [Bool.and_eq_true]
    constructor
    · rw [hd]; simp
    · exact noSplitPoint_of_nonws_tail (d :: rest)
        (fun x hx => h x (List.mem_cons_of_mem _ hx))

theorem noSplitPoint_all_ws (l : List Char)
    (h : ∀ c ∈ l, isSpace c = true) : noSplitPoint l = true := by
  match l with
  | [] => rfl
  | [c] => rfl
  | c :: d :: rest =>
    have hc : isSpace c = true := h c (List.mem_cons_self _ _)
    rw [show noSplitPoint (c :: d :: rest) =
      ((!(isTerm c && isSpace d)) && noSplitPoint (d :: rest)) from rfl]
    rw [Bool.and_eq_true]
    refine ⟨by rw [ws_not_term c hc]; simp, ?_⟩
    exact noSplitPoint_all_ws (d :: rest) (fun x hx => h x (List.mem_cons_of_mem _ hx))

theorem splitWsAux_ne_nil (s : List Char) :
    ∀ acc, acc ≠ [] → splitWsAux s acc ≠ [] := by
  induction s with
  | nil =>
    intro acc hacc
    have : acc.isEmpty = false := by
      cases acc with
      | nil => exact absurd rfl hacc
      | cons a l => rfl
    simp [splitWsAux, this]
  | cons c rest ih =>
    intro acc hacc
    have hne : acc.isEmpty = false := by
      cases acc with
      | nil => exact absurd rfl hacc
      | cons a l => rfl
    by_cases hc : isSpace c = true
    · simp [splitWsAux, hc, hne]
    · rw [Bool.not_eq_true] at hc
      simp only [splitWsAux, hc, Bool.false_eq_true, if_false]
      exact ih (c :: acc) (by simp)

theorem splitWs_cons_ne_nil (c : Char) (rest : List Char)
    (hc : isSpace c = false) : splitWs (c :: rest) ≠ [] := by
  show splitWsAux (c :: rest) [] ≠ []
  simp only [splitWsAux, hc, Bool.false_eq_true, if_false]
  exact splitWsAux_ne_nil rest [c] (by simp)

theorem groupCount_cons_term (B : List Char) (L : List (List Char))
    (h : endsTerm B = true) : groupCount (B :: L) = 1 + groupCount L := by
  cases L with
  | nil => rfl
  | cons b bs => rw [show groupCount (B :: b :: bs) =
      (if endsTerm B then 1 else 0) + groupCount (b :: bs) from rfl, h]; simp

theorem groupCount_cons_nonterm (B : List Char) (L : List (List Char))
    (h : endsTerm B = false) (hL : L ≠ []) : groupCount (B :: L) = groupCount L := by
  cases L with
  | nil => exact absurd rfl hL
  | cons b bs => rw [show groupCount (B :: b :: bs) =
      (if endsTerm B then 1 else 0) + groupCount (b :: bs) from rfl, h]; simp

theorem stripChars_all_ws (l : List Char) (h : ∀ c ∈ l, isSpace c = true) :
    stripChars l = [] := by
  unfold stripChars
  rw [List.dropWhile_eq_nil_iff.mpr h]
  rfl

theorem splitLoop_skip_toSent (w : List Char) (d : Char) (s4 : List Char)
    (hws : ∀ c ∈ w, isSpace c = true)
    (hhead : ∀ c, s4.head? = some c → isSpace c = false) :
    splitLoop (w ++ s4) d [] true = splitSent s4 := by
  rw [splitLoop_skip w d s4 hws hhead]
  cases s4 with
  | nil => rfl
  | cons c4 s5 => rfl

theorem noSplit_block_ws (B w : List Char)
    (hnw : ∀ c ∈ B, isSpace c = false) (hterm : endsTerm B = false)
    (hws : ∀ c ∈ w, isSpace c = true) :
    noSplitPoint (B ++ w) = true := by
  rw [noSplitPoint_iff_chain, List.chain'_append]
  refine ⟨(noSplitPoint_iff_chain B).mp
      (noSplitPoint_of_nonws_tail B (fun c hc => hnw c (List.mem_of_mem_tail hc))),
    (noSplitPoint_iff_chain w).mp (noSplitPoint_all_ws w hws), ?_⟩
  intro x hx y _
  have hxl : B.getLast? = some x := Option.mem_def.mp hx
  have hxt : isTerm x = false := by
    unfold endsTerm at hterm
    rw [hxl] at hterm
    exact hterm
  simp [hxt]

theorem noSplit_ws_concat (l : List Char) (d : Char)
    (hws : ∀ c ∈ l, isSpace c = true) :
    noSplitPoint (l ++ [d]) = true := by
  rw [noSplitPoint_iff_chain, List.chain'_append]
  refine ⟨(noSplitPoint_iff_chain l).mp (noSplitPoint_all_ws l hws),
    List.chain'_singleton _, ?_⟩
  intro x hx y _
  have hxl : l.getLast? = some x := Option.mem_def.mp hx
  have hxs : isSpace x = true := by
    rcases List.getLast?_eq_some_iff.mp hxl with ⟨l2, hl2⟩
    exact hws x (by rw [hl2]; exact List.mem_append_right _ (List.mem_cons_self _ _))
  rw [ws_not_term x hxs]
  simp

theorem noSplit_block_ws_concat (B w : List Char) (c4 : Char)
    (hnw : ∀ c ∈ B, isSpace c = false) (hterm : endsTerm B = false)
    (hws : ∀ c ∈ w, isSpace c = true) (hc4 : isSpace c4 = false) :
    noSplitPoint ((B ++ w) ++ [c4]) = true := by
  rw [noSplitPoint_iff_chain, List.chain'_append]
  refine ⟨(noSplitPoint_iff_chain (B ++ w)).mp (noSplit_block_ws B w hnw hterm hws),
    List.chain'_singleton _, ?_⟩
  intro x _ y hy
  have hy4 : y = c4 := by
    have h5 := Option.mem_def.mp hy
    simp at h5
    exact h5.symm
  subst hy4
  rw [hc4]
  simp

theorem splitSent_term_split (B : List Char) (hB : B ≠ [])
    (hnw : ∀ c ∈ B, isSpace c = false) (hterm : endsTerm B = true)
    (d : Char) (hd : isSpace d = true) (w : List Char)
    (hws : ∀ c ∈ w, isSpace c = true) (s4 : List Char)
    (hhead : ∀ c, s4.head? = some c → isSpace c = false) :
    splitSent (B ++ d :: (w ++ s4)) = B :: splitSent s4 := by
  rcases B.eq_nil_or_concat with hnil | ⟨Binit, e, hBe⟩
  · exact absurd hnil hB
  · rw [List.concat_eq_append] at hBe
    have het : isTerm e = true := by
      unfold endsTerm at hterm
      rw [hBe, List.getLast?_concat] at hterm
      exact hterm
    have hsplit : (isTerm e && isSpace d) = true := by rw [het, hd]; rfl
    cases Binit with
    | nil =>
      simp only [hBe, List.nil_append]
      show splitLoop (d :: (w ++ s4)) e [] false = [e] :: splitSent s4
      rw [show splitLoop (d :: (w ++ s4)) e [] false =
        ([e] : List Char) :: splitLoop (w ++ s4) d [] true from by simp [splitLoop, hsplit]]
      rw [splitLoop_skip_toSent w d s4 hws hhead]
    | cons c P =>
      have hstep : B ++ d :: (w ++ s4) = c :: (P ++ e :: (d :: (w ++ s4))) := by
        rw [hBe]; simp
      rw [hstep]
      show splitLoop (P ++ e :: (d :: (w ++ s4))) c [] false = B :: splitSent s4
      have hnsp : noSplitPoint ((c :: P) ++ [e]) = true := by
        rw [show ((c :: P) ++ [e] : List Char) = B from (hBe).symm]
        exact noSplitPoint_of_nonws_tail B (fun x hx => hnw x (List.mem_of_mem_tail hx))
      rw [splitLoop_carry P c [] e (d :: (w ++ s4)) hnsp]
      rw [show splitLoop (d :: (w ++ s4)) e ((c :: P).reverse ++ []) false =
        ((e :: ((c :: P).reverse ++ [])).reverse) :: splitLoop (w ++ s4) d [] true from by
          simp [splitLoop, hsplit]]
      rw [splitLoop_skip_toSent w d s4 hws hhead]
      rw [show ((e :: ((c :: P).reverse ++ [])).reverse : List Char) = (c :: P) ++ [e] from by simp]
      rw [← hBe]

theorem filterNE_cons_len (x : List Char) (xs : List (List Char)) (hx : x ≠ []) :
    ((x :: xs).filter (fun p => !p.isEmpty)).length =
      1 + (xs.filter (fun p => !p.isEmpty)).length := by
  rw [List.filter_cons]
  have hxe : (!x.isEmpty) = true := by
    cases x with
    | nil => exact absurd rfl hx
    | cons a l => rfl
  rw [if_pos hxe, List.length_cons]
  omega

theorem filterNE_cons_nil (xs : List (List Char)) :
    ((([] : List Char) :: xs).filter (fun p => !p.isEmpty)).length =
      (xs.filter (fun p => !p.isEmpty)).length := by
  rw [List.filter_cons]
  rfl

theorem sentCount_eq_group (N : Nat) :
    ∀ s : List Char, s.length ≤ N → sentCount s = groupCount (splitWs s) := by
  induction N with
  | zero =>
    intro s hs
    rw [List.length_eq_zero.mp (Nat.le_zero.mp hs)]
    rfl
  | succ N ih =>
    intro s hs
    cases s with
    | nil => rfl
    | cons c rest =>
    have hrestlen : rest.length ≤ N := by
      have := hs
      rw [List.length_cons] at this
      omega
    by_cases hc : isSpace c = true
    · -- whitespace at the head: it is absorbed into the first piece and stripped
      obtain ⟨w2, s2, hrest, hw2ws, hs2head⟩ :
          ∃ w2 s2, rest = w2 ++ s2 ∧ (∀ x ∈ w2, isSpace x = true) ∧
            (∀ x, s2.head? = some x → isSpace x = false) :=
        ⟨rest.takeWhile isSpace, rest.dropWhile isSpace,
          (List.takeWhile_append_dropWhile isSpace rest).symm,
          fun x hx => List.mem_takeWhile_imp hx,
          fun x hx => dropWhile_head_not isSpace rest x hx⟩
      have hcw : ∀ x ∈ c :: w2, isSpace x = true := by
        intro x hx
        rcases List.mem_cons.mp hx with h | h
        · rw [h]; exact hc
        · exact hw2ws x h
      cases s2 with
      | nil =>
        have hallws : ∀ x ∈ c :: rest, isSpace x = true := by
          intro x hx
          rcases List.mem_cons.mp hx with h | h
          · rw [h]; exact hc
          · rw [hrest, List.append_nil] at h
            exact hw2ws x h
        have h1 : splitSent (c :: rest) = [c :: rest] := by
          show splitLoop rest c [] false = _
          rw [splitLoop_carry_nil rest c [] (noSplitPoint_all_ws _ hallws)]
          rfl
        have h2 : sentCount (c :: rest) = 0 := by
          unfold sentCount
          rw [h1, List.map_cons, List.map_nil, stripChars_all_ws _ hallws]
          rfl
        have hcr : (c :: rest : List Char) = (c :: w2) ++ [] := by
          rw [List.append_nil, hrest, List.append_nil]
        have h3 : splitWs (c :: rest) = [] := by
          rw [hcr, splitWs_ws_left (c :: w2) [] hcw]
          rfl
        rw [h2, h3]
        rfl
      | cons d s3 =>
        have hd : isSpace d = false := hs2head d rfl
        rcases splitLoop_first s3 d with ⟨t, ps, hfp⟩
        have hnsp : noSplitPoint ((c :: w2) ++ [d]) = true := noSplit_ws_concat (c :: w2) d hcw
        have h1 : splitSent (c :: rest) = ((c :: w2) ++ (d :: t)) :: ps := by
          show splitLoop rest c [] false = _
          rw [show rest = w2 ++ d :: s3 from hrest]
          rw [splitLoop_carry w2 c [] d s3 hnsp]
          rw [hfp ((c :: w2).reverse ++ [])]
          simp
        have h2 : splitSent (d :: s3) = (d :: t) :: ps := by
          show splitLoop s3 d [] false = _
          rw [hfp []]
          rfl
        have hstr : stripChars ((c :: w2) ++ (d :: t)) = stripChars (d :: t) :=
          stripChars_ws_left (c :: w2) (d :: t) hcw
        have h3 : sentCount (c :: rest) = sentCount (d :: s3) := by
          unfold sentCount
          rw [h1, h2, List.map_cons, List.map_cons, hstr]
        have h4 : splitWs (c :: rest) = splitWs (d :: s3) := by
          rw [show (c :: rest : List Char) = (c :: w2) ++ (d :: s3) from by rw [hrest]; rfl]
          exact splitWs_ws_left (c :: w2) (d :: s3) hcw
        have h5 : (d :: s3 : List Char).length ≤ N := by
          have h6 : (d :: s3 : List Char).length ≤ rest.length := by
            rw [hrest]
            simp
          omega
        rw [h3, h4]
        exact ih (d :: s3) h5
    · -- a word at the head
      rw [Bool.not_eq_true] at hc
      obtain ⟨B2, s2, hrest, hB2, hs2head⟩ :
          ∃ B2 s2, rest = B2 ++ s2 ∧ (∀ x ∈ B2, isSpace x = false) ∧
            (∀ x, s2.head? = some x → isSpace x = true) := by
        refine ⟨rest.takeWhile (fun x => !isSpace x), rest.dropWhile (fun x => !isSpace x),
          (List.takeWhile_append_dropWhile _ rest).symm, ?_, ?_⟩
        · intro x hx
          have h00 := List.mem_takeWhile_imp hx
          have h0 : (!isSpace x) = true := h00
          cases hv : isSpace x
          · rfl
          · rw [hv] at h0; exact absurd h0 (by simp)
        · intro x hx
          have h00 := dropWhile_head_not (fun x => !isSpace x) rest x hx
          have h0 : (!isSpace x) = false := h00
          cases hv : isSpace x
          · rw [hv] at h0; exact absurd h0 (by simp)
          · rfl
      have hBnw : ∀ x ∈ c :: B2, isSpace x = false := by
        intro x hx
        rcases List.mem_cons.mp hx with h | h
        · rw [h]; exact hc
        · exact hB2 x h
      cases s2 with
      | nil =>
        -- the whole string is a single word
        have hBr : rest = B2 := by rw [hrest, List.append_nil]
        have h1 : splitSent (c :: rest) = [c :: rest] := by
          show splitLoop rest c [] false = _
          rw [splitLoop_carry_nil rest c []
            (noSplitPoint_of_nonws_tail (c :: rest)
              (fun x hx => by rw [hBr] at hx; exact hB2 x hx))]
          rfl
        have h2 : sentCount (c :: rest) = 1 := by
          unfold sentCount
          rw [h1, List.map_cons, List.map_nil,
            stripChars_no_ws (c :: rest) (by rw [hBr]; exact hBnw)]
          rw [filterNE_cons_len (c :: rest) [] (by simp)]
          rfl
        have h3 : splitWs (c :: rest) = [c :: rest] :=
          splitWs_block (c :: rest) (by simp) (by rw [hBr]; exact hBnw)
        rw [h2, h3]
        rfl
      | cons d s3 =>
        have hd : isSpace d = true := hs2head d rfl
        obtain ⟨w2, s4, hs3, hw2ws, hs4head⟩ :
            ∃ w2 s4, s3 = w2 ++ s4 ∧ (∀ x ∈ w2, isSpace x = true) ∧
              (∀ x, s4.head? = some x → isSpace x = false) :=
          ⟨s3.takeWhile isSpace, s3.dropWhile isSpace,
            (List.takeWhile_append_dropWhile isSpace s3).symm,
            fun x hx => List.mem_takeWhile_imp hx,
            fun x hx => dropWhile_head_not isSpace s3 x hx⟩
        have hdw : ∀ x ∈ d :: w2, isSpace x = true := by
          intro x hx
          rcases List.mem_cons.mp hx with h | h
          · rw [h]; exact hd
          · exact hw2ws x h
        have hs4len : s4.length ≤ N := by
          have h7 : s3.length ≤ rest.length := by
            rw [hrest]
            simp [List.length_append]
            omega
          have h8 : s4.length ≤ s3.length := by
            rw [hs3]
            simp
          omega
        have hsw : splitWs (c :: rest) = (c :: B2) :: splitWs s4 := by
          rw [show (c :: rest : List Char) = (c :: B2) ++ (d :: s3) from by rw [hrest]; rfl]
          rw [splitWs_block_ws (c :: B2) (d :: s3) (by simp) hBnw
            (fun x hx => by
              have h9 : d = x := by simpa using hx
              rw [← h9]; exact hd)]
          rw [show (d :: s3 : List Char) = (d :: w2) ++ s4 from by rw [hs3]; rfl]
          rw [splitWs_ws_left (d :: w2) s4 hdw]
        by_cases hterm : endsTerm (c :: B2) = true
        · -- the word ends in terminal punctuation: the scan splits here
          have h1 : splitSent (c :: rest) = (c :: B2) :: splitSent s4 := by
            rw [show (c :: rest : List Char) = (c :: B2) ++ d :: (w2 ++ s4) from by
              rw [hrest, hs3]; rfl]
            exact splitSent_term_split (c :: B2) (by simp) hBnw hterm d hd w2 hw2ws s4 hs4head
          have h2 : sentCount (c :: rest) = 1 + sentCount s4 := by
            unfold sentCount
            rw [h1, List.map_cons, stripChars_no_ws (c :: B2) hBnw]
            rw [filterNE_cons_len (c :: B2) _ (by simp)]
          have h3 : groupCount (splitWs (c :: rest)) = 1 + groupCount (splitWs s4) := by
            rw [hsw]
            exact groupCount_cons_term (c :: B2) (splitWs s4) hterm
          rw [h2, h3, ih s4 hs4len]
        · -- no terminal punctuation: the word, run and next piece fuse
          rw [Bool.not_eq_true] at hterm
          cases s4 with
          | nil =>
            -- trailing whitespace only
            have h1 : splitSent (c :: rest) = [(c :: B2) ++ (d :: w2)] := by
              show splitLoop rest c [] false = _
              rw [show rest = B2 ++ (d :: w2) from by rw [hrest, hs3, List.append_nil]]
              rw [splitLoop_carry_nil (B2 ++ (d :: w2)) c []
                (noSplit_block_ws (c :: B2) (d :: w2) hBnw hterm hdw)]
              rfl
            have h2 : sentCount (c :: rest) = 1 := by
              unfold sentCount
              rw [h1, List.map_cons, List.map_nil,
                stripChars_append_ws (c :: B2) (d :: w2) hdw,
                stripChars_no_ws (c :: B2) hBnw]
              rw [filterNE_cons_len (c :: B2) [] (by simp)]
              rfl
            have h3 : groupCount (splitWs (c :: rest)) = 1 := by
              rw [hsw]
              rfl
            rw [h2, h3]
          | cons c4 s5 =>
            have hc4 : isSpace c4 = false := hs4head c4 rfl
            rcases splitLoop_first s5 c4 with ⟨t, ps, hfp⟩
            have h1 : splitSent (c :: rest) =
                (((c :: B2) ++ (d :: w2)) ++ (c4 :: t)) :: ps := by
              show splitLoop rest c [] false = _
              rw [show rest = (B2 ++ (d :: w2)) ++ (c4 :: s5) from by
                rw [hrest, hs3]; simp]
              rw [splitLoop_carry (B2 ++ (d :: w2)) c [] c4 s5
                (by
                  have h9 := noSplit_block_ws_concat (c :: B2) (d :: w2) c4 hBnw hterm hdw hc4
                  rw [show ((c :: B2) ++ (d :: w2)) ++ [c4] =
                    (c :: (B2 ++ (d :: w2))) ++ [c4] from by simp] at h9
                  exact h9)]
              rw [hfp ((c :: (B2 ++ (d :: w2))).reverse ++ [])]
              simp
            have h2 : splitSent (c4 :: s5) = (c4 :: t) :: ps := by
              show splitLoop s5 c4 [] false = _
              rw [hfp []]
              rfl
            have hne1 : stripChars (((c :: B2) ++ (d :: w2)) ++ (c4 :: t)) ≠ [] := by
              apply stripChars_ne_nil _ c _ hc
              simp
            have hne2 : stripChars (c4 :: t) ≠ [] := by
              apply stripChars_ne_nil _ c4 _ hc4
              simp
            have h3 : sentCount (c :: rest) = sentCount (c4 :: s5) := by
              unfold sentCount
              rw [h1, h2, List.map_cons, List.map_cons]
              rw [filterNE_cons_len _ _ hne1, filterNE_cons_len _ _ hne2]
            have h4 : groupCount (splitWs (c :: rest)) = groupCount (splitWs (c4 :: s5)) := by
              rw [hsw]
              exact groupCount_cons_nonterm (c :: B2) (splitWs (c4 :: s5)) hterm
                (splitWs_cons_ne_nil c4 s5 hc4)
            rw [h3, h4]
            exact ih (c4 :: s5) hs4len

theorem sentCount_all (s : List Char) : sentCount s = groupCount (splitWs s) :=
  sentCount_eq_group s.length s (Nat.le_refl _)

theorem sentCount_collapseWs (s : List Char) : sentCount (collapseWs s) = sentCount s := by
  rw [sentCount_all, sentCount_all]
  rw [show splitWs (collapseWs s) = splitWs s from
    splitWs_joinSpace (splitWs s) (splitWs_blocks s)]

theorem tokenize_len_eq (t : List Char) :
    (simple_tokenize (clean_text t)).length = (simple_tokenize t).length := by
  show sentCount (clean_text (clean_text t)) = sentCount (clean_text t)
  rw [clean_text_twice]
  exact sentCount_collapseWs (clean_text t)

/-- C1: for every raw text `t` and bound `n ≥ 1`, if segmenting `t` yields
at most `n` sentences then `summarize_text` returns `clean_text t`
verbatim (whatever the stopword resource does); the `t = ""`, `n = 3`
instance returning `""` is checked in the witness. -/
theorem C1_shortcut (stopRes : Except Unit (List (List Char))) (t : List Char) (n : Nat)
    (hn : 1 ≤ n) (hlen : (simple_tokenize t).length ≤ n) :
    summarize_text stopRes t n = clean_text t := by
  have hcond : (simple_tokenize (clean_text t)).length ≤ n := by
    rw [tokenize_len_eq t]; exact hlen
  unfold summarize_text
  rw [if_pos hcond]

theorem C1_shortcut_witness :
    (1 ≤ 3 ∧ (simple_tokenize (lc "")).length ≤ 3 ∧
      summarize_text (.ok []) (lc "") 3 = clean_text (lc "")) ∧
      summarize_text (.ok []) (lc "") 3 = [] :=
  ⟨⟨by decide, by decide, C1_shortcut (.ok []) (lc "") 3 (by decide) (by decide)⟩,
    by decide⟩

/-- C2 counterexample: with the stopword resource unavailable, on
`"x - y. z."` with `n = 1` the fallback returns `"x y."` (the first
sentence of the re-cleaned text), while the first sentence of
`simple_tokenize(t)` is `"x  y."` (double space), so the claimed equality
fails. -/
theorem C2_cex :
    summarize_text (.error ()) (lc "x - y. z.") 1 ≠
      joinSpace ((simple_tokenize (lc "x - y. z.")).take 1) := by decide

/-- C2 (amended): `summarize_text` is a total function (it always
returns a string, never an exception), and when the stopword resource
errors and the article has more than `n` sentences, the result is the
first `n` sentences of `simple_tokenize(clean_text t)` — the tokenizer
applied to the already-cleaned text, which is what the mutated `text`
variable holds at the `except` handler — joined by single spaces in
original order. -/
theorem C2_fallback (t : List Char) (n : Nat)
    (h : n < (simple_tokenize t).length) :
    summarize_text (.error ()) t n =
      joinSpace ((simple_tokenize (clean_text t)).take n) := by
  have hcond : ¬ (simple_tokenize (clean_text t)).length ≤ n := by
    rw [tokenize_len_eq t]; omega
  unfold summarize_text
  rw [if_neg hcond]

theorem C2_fallback_witness :
    1 < (simple_tokenize (lc "a. b. c.")).length ∧
      summarize_text (.error ()) (lc "a. b. c.") 1 =
        joinSpace ((simple_tokenize (clean_text (lc "a. b. c."))).take 1) :=
  ⟨by decide, C2_fallback (lc "a. b. c.") 1 (by decide)⟩

theorem buildFreq_all_fail (S : List (List Char)) :
    ∀ ts, (∀ w ∈ ts, (isAlnumStr w && !S.contains w) = false) →
      buildFreq S ts = [] := by
  intro ts
  induction ts with
  | nil => intro _; rfl
  | cons w ts ih =>
    intro h
    show List.foldl _ [] (w :: ts) = []
    rw [List.foldl_cons]
    have hw := h w (List.mem_cons_self _ _)
    simp only [hw, Bool.false_eq_true, if_false]
    exact ih (fun x hx => h x (List.mem_cons_of_mem _ hx))

theorem scoreWords_nil_freq (s : List Char) (tbl : List (List Char × Nat)) :
    scoreWords [] s tbl = tbl := by
  unfold scoreWords
  generalize splitWs (lowerStr s) = ws
  induction ws generalizing tbl with
  | nil => rfl
  | cons w ws ih =>
    rw [List.foldl_cons]
    exact ih tbl

theorem buildScores_nil_freq (sents : List (List Char)) : buildScores [] sents = [] := by
  unfold buildScores
  induction sents with
  | nil => rfl
  | cons s ss ih =>
    rw [List.foldl_cons, scoreWords_nil_freq s []]
    exact ih

/-- C3 counterexample: on `"a. b. c."` with `n = 1` and an empty
stopword set, no token qualifies (each carries a period), the score
table is empty, and the code returns the empty string — not the claimed
first-`n`-sentences truncation `"a."`. -/
theorem C3_cex :
    1 < (simple_tokenize (lc "a. b. c.")).length ∧
    (∀ w ∈ splitWs (lowerStr (clean_text (lc "a. b. c."))),
      (isAlnumStr w && !([] : List (List Char)).contains w) = false) ∧
    summarize_text (.ok []) (lc "a. b. c.") 1 = [] ∧
    summarize_text (.ok []) (lc "a. b. c.") 1 ≠
      joinSpace ((simple_tokenize (lc "a. b. c.")).take 1) := by decide

/-- C3 (amended): when the article has more than `n` sentences and no
lowercased whitespace token of the cleaned text is both entirely
alphanumeric and outside the stopword set, the word-frequency table and
the sentence-score table are empty and the normal path returns the EMPTY
string (selecting the top `n` of an empty table), not the original-order
truncation the claim describes. -/
theorem C3_empty_scores (S : List (List Char)) (t : List Char) (n : Nat)
    (hn : 1 ≤ n) (hlen : n < (simple_tokenize t).length)
    (hq : ∀ w ∈ splitWs (lowerStr (clean_text t)),
      (isAlnumStr w && !S.contains w) = false) :
    summarize_text (.ok S) t n = [] := by
  have hfreq : wordFreqOf S t = [] := buildFreq_all_fail S _ hq
  have hscores : sentScoresOf S t = [] := by
    unfold sentScoresOf
    rw [hfreq]
    exact buildScores_nil_freq _
  have hcond : ¬ (simple_tokenize (clean_text t)).length ≤ n := by
    rw [tokenize_len_eq t]; omega
  unfold summarize_text
  rw [if_neg hcond]
  show joinSpace (((sortScores (sentScoresOf S t)).take n).map Prod.fst) = []
  rw [hscores, show sortScores [] = [] from rfl, List.take_nil, List.map_nil]
  rfl

theorem C3_empty_scores_witness :
    (1 ≤ 1 ∧ 1 < (simple_tokenize (lc "a. b. c.")).length) ∧
      summarize_text (.ok []) (lc "a. b. c.") 1 = [] :=
  ⟨⟨le_refl 1, by decide⟩,
    C3_empty_scores [] (lc "a. b. c.") 1 (by decide) (by decide) (by decide)⟩

/-- C5 counterexample: `clean_text` is not idempotent.  Cleaning
`"a - b"` yields `"a  b"` — deleting the dash leaves two adjacent
spaces — and cleaning again collapses them to `"a b"`. -/
theorem C5_cex :
    clean_text (clean_text (lc "a - b")) ≠ clean_text (lc "a - b") := by decide

/-- C5 (amended): `clean_text` is idempotent from the second application
on: for every string `t`, `clean(clean(clean t)) = clean(clean t)` (a
second clean only collapses the space runs that character removal left
behind; idempotence of a single application fails, see the
counterexample). -/
theorem C5_stable (t : List Char) :
    clean_text (clean_text (clean_text t)) = clean_text (clean_text t) := by
  rw [clean_text_twice (clean_text t), clean_text_twice t, collapseWs_idem]

theorem term_not_ws (a : Char) (h : isTerm a = true) : isSpace a = false := by
  cases hsp : isSpace a
  · rfl
  · rw [ws_not_term a hsp] at h
    exact Bool.noConfusion h

theorem term_and_kept (a : Char) : (isTerm a && isKeptChar a) = isTerm a := by
  cases ht : isTerm a
  · rfl
  · have hk : isKeptChar a = true := by unfold isKeptChar; rw [ht]; simp
    rw [hk]
    rfl

theorem term_and_nonws (a : Char) : (isTerm a && !isSpace a) = isTerm a := by
  cases ht : isTerm a
  · rfl
  · rw [term_not_ws a ht]
    rfl

theorem filter_joinSpace (q : Char → Bool) (hq : q ' ' = false) (ps : List (List Char)) :
    (joinSpace ps).filter q = ps.flatten.filter q := by
  induction ps with
  | nil => rfl
  | cons p ps ih =>
    cases ps with
    | nil => simp [joinSpace]
    | cons r rs =>
      rw [show joinSpace (p :: r :: rs) = p ++ ' ' :: joinSpace (r :: rs) from rfl]
      rw [List.filter_append, List.filter_cons, hq]
      simp only [Bool.false_eq_true, if_false]
      rw [ih]
      rw [show ((p :: r :: rs).flatten : List Char) = p ++ (r :: rs).flatten from rfl]
      rw [List.filter_append]

theorem splitWsAux_flatten (s : List Char) :
    ∀ acc, (splitWsAux s acc).flatten = acc.reverse ++ s.filter (fun c => !isSpace c) := by
  induction s with
  | nil =>
    intro acc
    cases acc with
    | nil => rfl
    | cons a l => simp [splitWsAux]
  | cons c rest ih =>
    intro acc
    by_cases hc : isSpace c = true
    · have hfc : (c :: rest).filter (fun c => !isSpace c) =
          rest.filter (fun c => !isSpace c) := by
        rw [List.filter_cons, hc]
        rfl
      cases acc with
      | nil =>
        simp only [splitWsAux, hc, if_true, List.isEmpty_nil]
        rw [ih [], hfc]
      | cons a l =>
        simp only [splitWsAux, hc, if_true]
        rw [show ((a :: l : List Char).isEmpty) = false from rfl]
        simp only [Bool.false_eq_true, if_false]
        rw [show (((a :: l).reverse :: splitWsAux rest []).flatten : List Char) =
          (a :: l).reverse ++ (splitWsAux rest []).flatten from rfl]
        rw [ih [], hfc]
        rfl
    · rw [Bool.not_eq_true] at hc
      simp only [splitWsAux, hc, Bool.false_eq_true, if_false]
      rw [ih (c :: acc)]
      rw [List.filter_cons]
      rw [hc]
      simp

theorem splitWs_flatten (s : List Char) :
    (splitWs s).flatten = s.filter (fun c => !isSpace c) := by
  have h := splitWsAux_flatten s []
  simpa using h

/-- C6 counterexample: `clean_text "a - b" = "a  b"` contains two
consecutive spaces, so the claimed no-consecutive-whitespace invariant
of CleanText fails. -/
theorem C6_cex :
    hasConsecWs (clean_text (lc "a - b")) = true ∧
      clean_text (lc "a - b") = lc "a  b" := by decide

/-- C6 (amended): for every string `t`, `clean_text t` contains only
kept characters (word characters, whitespace, `.!?`), its whitespace
characters are all the single-space character `' '`, and the subsequence
of sentence-terminal punctuation characters of the input is preserved
exactly; the claim's no-consecutive-whitespace conjunct is false and is
dropped (a removed character may leave two adjacent spaces). -/
theorem C6_invariant (t : List Char) :
    (∀ c ∈ clean_text t, isKeptChar c = true) ∧
    (∀ c ∈ clean_text t, isSpace c = true → c = ' ') ∧
    (clean_text t).filter isTerm = t.filter isTerm := by
  refine ⟨fun c hc => (List.mem_filter.mp hc).2, ?_, ?_⟩
  · intro c hc hcs
    have h1 : c ∈ collapseWs t := (List.mem_filter.mp hc).1
    rcases joinSpace_mem _ c h1 with h | ⟨b, hb, hcb⟩
    · exact h
    · have h2 := (splitWs_blocks t b hb).2 c hcb
      rw [h2] at hcs
      exact Bool.noConfusion hcs
  · show ((collapseWs t).filter isKeptChar).filter isTerm = t.filter isTerm
    rw [List.filter_filter]
    rw [List.filter_congr (fun a _ => term_and_kept a)]
    rw [show (collapseWs t : List Char) = joinSpace (splitWs t) from rfl]
    rw [filter_joinSpace isTerm (by decide) (splitWs t)]
    rw [splitWs_flatten t]
    rw [List.filter_filter]
    exact List.filter_congr (fun a _ => term_and_nonws a)

/-- C4 counterexample: on the worked example with stopwords
`{the, at}`, the frequency table does NOT map "fast" (or "night") to 1 —
the tokens are "fast." and "night." with attached periods and fail
`isalnum` — the top sentence "The cat ran fast." scores cat(2)+ran(1)=3,
not 4, and it is not the unique highest score: "Dogs bark loudly at
night." also scores 3. -/
theorem C4_cex :
    lookupTbl (lc "fast") (wordFreqOf exS exText) = none ∧
    lookupTbl (lc "night") (wordFreqOf exS exText) = none ∧
    lookupTbl (lc "The cat ran fast.") (sentScoresOf exS exText) = some 3 ∧
    lookupTbl (lc "Dogs bark loudly at night.") (sentScoresOf exS exText) = some 3 := by
  decide

/-- C4 (amended): for the example input with any stopword set containing
"the" and "at" but none of the content words: cleaning leaves the text
unchanged and segmentation yields the 3 sentences; the frequency table
is exactly cat ↦ 2, ran ↦ 1, dogs ↦ 1, bark ↦ 1, loudly ↦ 1 ("sat.",
"fast." and "night." fail the alphanumeric test because of the attached
period); the scores are 2, 3, 3; "The cat ran fast." ties with the third
sentence at 3 and wins on insertion order, so the returned summary is
"The cat ran fast.". -/
theorem C4_example (S : List (List Char))
    (hthe : S.contains (lc "the") = true) (hat : S.contains (lc "at") = true)
    (hcat : S.contains (lc "cat") = false) (hran : S.contains (lc "ran") = false)
    (hdogs : S.contains (lc "dogs") = false) (hbark : S.contains (lc "bark") = false)
    (hloudly : S.contains (lc "loudly") = false) :
    clean_text exText = exText ∧
    simple_tokenize exText =
      [lc "The cat sat.", lc "The cat ran fast.", lc "Dogs bark loudly at night."] ∧
    wordFreqOf S exText =
      [(lc "cat", 2), (lc "ran", 1), (lc "dogs", 1), (lc "bark", 1), (lc "loudly", 1)] ∧
    lookupTbl (lc "fast") (wordFreqOf S exText) = none ∧
    lookupTbl (lc "night") (wordFreqOf S exText) = none ∧
    sentScoresOf S exText =
      [(lc "The cat sat.", 2), (lc "The cat ran fast.", 3),
        (lc "Dogs bark loudly at night.", 3)] ∧
    summarize_text (.ok S) exText 1 = lc "The cat ran fast." := by
  have htok : splitWs (lowerStr (clean_text exText)) =
      [lc "the", lc "cat", lc "sat.", lc "the", lc "cat", lc "ran", lc "fast.",
        lc "dogs", lc "bark", lc "loudly", lc "at", lc "night."] := by decide
  have a1 : isAlnumStr (lc "the") = true := by decide
  have a2 : isAlnumStr (lc "cat") = true := by decide
  have a3 : isAlnumStr (lc "sat.") = false := by decide
  have a4 : isAlnumStr (lc "ran") = true := by decide
  have a5 : isAlnumStr (lc "fast.") = false := by decide
  have a6 : isAlnumStr (lc "dogs") = true := by decide
  have a7 : isAlnumStr (lc "bark") = true := by decide
  have a8 : isAlnumStr (lc "loudly") = true := by decide
  have a9 : isAlnumStr (lc "at") = true := by decide
  have a10 : isAlnumStr (lc "night.") = false := by decide
  have hfreq : wordFreqOf S exText =
      [(lc "cat", 2), (lc "ran", 1), (lc "dogs", 1), (lc "bark", 1), (lc "loudly", 1)] := by
    unfold wordFreqOf
    rw [htok]
    unfold buildFreq
    simp only [List.foldl_cons, List.foldl_nil, a1, a2, a3, a4, a5, a6, a7, a8, a9, a10,
      hthe, hat, hcat, hran, hdogs, hbark, hloudly, Bool.false_and, Bool.true_and,
      Bool.not_true, Bool.not_false, Bool.and_false, Bool.and_true, Bool.false_eq_true,
      if_false, if_true]
    decide
  have hscores : sentScoresOf S exText =
      [(lc "The cat sat.", 2), (lc "The cat ran fast.", 3),
        (lc "Dogs bark loudly at night.", 3)] := by
    unfold sentScoresOf
    rw [hfreq]
    decide
  refine ⟨by decide, by decide, hfreq, by rw [hfreq]; decide, by rw [hfreq]; decide,
    hscores, ?_⟩
  unfold summarize_text
  rw [if_neg (by decide)]
  show joinSpace (((sortScores (sentScoresOf S exText)).take 1).map Prod.fst) =
    lc "The cat ran fast."
  rw [hscores]
  decide

theorem C4_example_witness :
    (exS.contains (lc "the") = true ∧ exS.contains (lc "at") = true ∧
      exS.contains (lc "cat") = false) ∧
    summarize_text (.ok exS) exText 1 = lc "The cat ran fast." :=
  ⟨⟨by decide, by decide, by decide⟩,
    (C4_example exS (by decide) (by decide) (by decide) (by decide) (by decide)
      (by decide) (by decide)).2.2.2.2.2.2⟩

/-! ### The stable descending sort -/

theorem insertDesc_decomp (x : List Char × Nat) (m : List (List Char × Nat)) :
    ∃ pre post, insertDesc x m = pre ++ x :: post ∧ m = pre ++ post ∧
      ∀ y ∈ pre, x.2 < y.2 := by
  induction m with
  | nil => exact ⟨[], [], rfl, rfl, by simp⟩
  | cons y ys ih =>
    by_cases h : y.2 ≤ x.2
    · exact ⟨[], y :: ys, by simp [insertDesc, h], rfl, by simp⟩
    · rcases ih with ⟨pre, post, h1, h2, h3⟩
      refine ⟨y :: pre, post, ?_, ?_, ?_⟩
      · rw [show insertDesc x (y :: ys) = y :: insertDesc x ys from by
          simp [insertDesc, h]]
        rw [h1]
        rfl
      · rw [show (y :: pre) ++ post = y :: (pre ++ post) from rfl, ← h2]
      · intro z hz
        rcases List.mem_cons.mp hz with h4 | h4
        · rw [h4]; omega
        · exact h3 z h4

theorem sublist_insertDesc (x : List Char × Nat) (m : List (List Char × Nat)) :
    List.Sublist m (insertDesc x m) := by
  rcases insertDesc_decomp x m with ⟨pre, post, h1, h2, _⟩
  rw [h1, h2]
  exact List.Sublist.append_left (List.sublist_cons_self x post) pre

theorem perm_insertDesc (x : List Char × Nat) (m : List (List Char × Nat)) :
    (insertDesc x m).Perm (x :: m) := by
  rcases insertDesc_decomp x m with ⟨pre, post, h1, h2, _⟩
  rw [h1, h2]
  exact List.perm_middle

theorem insertDesc_sorted (x : List Char × Nat) (m : List (List Char × Nat))
    (hm : List.Pairwise (fun a b => b.2 ≤ a.2) m) :
    List.Pairwise (fun a b => b.2 ≤ a.2) (insertDesc x m) := by
  induction m with
  | nil => simp [insertDesc]
  | cons y ys ih =>
    rcases List.pairwise_cons.mp hm with ⟨hy, hys⟩
    by_cases h : y.2 ≤ x.2
    · rw [show insertDesc x (y :: ys) = x :: y :: ys from by simp [insertDesc, h]]
      refine List.pairwise_cons.mpr ⟨?_, hm⟩
      intro z hz
      rcases List.mem_cons.mp hz with h4 | h4
      · rw [h4]; exact h
      · exact le_trans (hy z h4) h
    · rw [show insertDesc x (y :: ys) = y :: insertDesc x ys from by
        simp [insertDesc, h]]
      refine List.pairwise_cons.mpr ⟨?_, ih hys⟩
      intro z hz
      have hz2 : z ∈ x :: ys := (perm_insertDesc x ys).subset hz
      rcases List.mem_cons.mp hz2 with h4 | h4
      · rw [h4]; omega
      · exact hy z h4

theorem sortScores_perm (m : List (List Char × Nat)) : (sortScores m).Perm m := by
  induction m with
  | nil => exact List.Perm.refl []
  | cons x xs ih =>
    exact (perm_insertDesc x (sortScores xs)).trans (ih.cons x)

theorem sortScores_sorted (m : List (List Char × Nat)) :
    List.Pairwise (fun a b => b.2 ≤ a.2) (sortScores m) := by
  induction m with
  | nil => exact List.Pairwise.nil
  | cons x xs ih => exact insertDesc_sorted x _ ih

theorem sortScores_stable (m : List (List Char × Nat)) (a b : List Char × Nat)
    (hab : a.2 = b.2) (h : List.Sublist [a, b] m) :
    List.Sublist [a, b] (sortScores m) := by
  induction m with
  | nil => simp at h
  | cons x xs ih =>
    cases h with
    | cons _ h2 =>
      exact (ih h2).trans (sublist_insertDesc x (sortScores xs))
    | cons₂ _ h2 =>
      have hbmem : b ∈ sortScores xs := by
        have hb : b ∈ xs := (List.singleton_sublist.mp h2)
        exact ((sortScores_perm xs).symm.subset) hb
      rcases insertDesc_decomp a (sortScores xs) with ⟨pre, post, h1, hsplit, hpre⟩
      have hbpost : b ∈ post := by
        have hmem : b ∈ pre ++ post := by rw [← hsplit]; exact hbmem
        rcases List.mem_append.mp hmem with h4 | h4
        · exact absurd (hpre b h4) (by omega)
        · exact h4
      rw [show sortScores (a :: xs) = insertDesc a (sortScores xs) from rfl, h1]
      have hstep : List.Sublist [a, b] (a :: post) :=
        List.Sublist.cons₂ a (List.singleton_sublist.mpr hbpost)
      exact hstep.trans (List.sublist_append_right pre (a :: post))

/-- C7: on the normal path (stopwords available, more than `n`
sentences), `summarize_text` returns the single-space join of the first
`n` entries of a list `sorted` that is a permutation of the sentence
score table, ordered by score descending, with ties keeping the table's
insertion order (entries of equal score appear in `sorted` in the same
relative order as in the table, NOT restored to article position), and
the output has at most `n` sentences. -/
theorem C7_topn (S : List (List Char)) (t : List Char) (n : Nat)
    (hn : 1 ≤ n) (hlen : n < (simple_tokenize t).length) :
    ∃ sorted : List (List Char × Nat),
      sorted.Perm (sentScoresOf S t) ∧
      List.Pairwise (fun a b => b.2 ≤ a.2) sorted ∧
      (∀ a b, a.2 = b.2 → List.Sublist [a, b] (sentScoresOf S t) →
        List.Sublist [a, b] sorted) ∧
      summarize_text (.ok S) t n = joinSpace ((sorted.take n).map Prod.fst) ∧
      ((sorted.take n).map Prod.fst).length ≤ n := by
  refine ⟨sortScores (sentScoresOf S t), sortScores_perm _, sortScores_sorted _,
    fun a b hab h => sortScores_stable _ a b hab h, ?_, ?_⟩
  · unfold summarize_text
    rw [if_neg (by rw [tokenize_len_eq]; omega)]
  · rw [List.length_map]
    exact List.length_take_le n _

theorem C7_topn_witness :
    (1 ≤ 1 ∧ 1 < (simple_tokenize exText).length) ∧
    (∃ sorted : List (List Char × Nat),
      sorted.Perm (sentScoresOf exS exText) ∧
      List.Pairwise (fun a b => b.2 ≤ a.2) sorted ∧
      (∀ a b, a.2 = b.2 → List.Sublist [a, b] (sentScoresOf exS exText) →
        List.Sublist [a, b] sorted) ∧
      summarize_text (.ok exS) exText 1 = joinSpace ((sorted.take 1).map Prod.fst) ∧
      ((sorted.take 1).map Prod.fst).length ≤ 1) :=
  ⟨⟨le_refl 1, by decide⟩, C7_topn exS exText 1 (by decide) (by decide)⟩

/-! ### Score-table accumulation -/

theorem addScore_addScore (s : List Char) (a1 a2 : Nat) (T : List (List Char × Nat)) :
    addScore s a2 (addScore s a1 T) = addScore s (a1 + a2) T := by
  induction T with
  | nil => simp [addScore, Nat.add_assoc]
  | cons kv T ih =>
    rcases kv with ⟨k, v⟩
    by_cases h : k = s
    · subst h
      simp [addScore, Nat.add_assoc]
    · simp [addScore, h, ih]

theorem lookupTbl_addScore_self (s : List Char) (d : Nat) (T : List (List Char × Nat)) :
    lookupTbl s (addScore s d T) = some ((lookupTbl s T).getD 0 + d) := by
  induction T with
  | nil => simp [addScore, lookupTbl]
  | cons kv T ih =>
    rcases kv with ⟨k, v⟩
    by_cases h : k = s
    · subst h
      simp [addScore, lookupTbl]
    · simp [addScore, lookupTbl, h, ih]

theorem lookupTbl_addScore_other (s s2 : List Char) (hne : s ≠ s2) (d : Nat)
    (T : List (List Char × Nat)) :
    lookupTbl s2 (addScore s d T) = lookupTbl s2 T := by
  induction T with
  | nil => simp [addScore, lookupTbl, hne]
  | cons kv T ih =>
    rcases kv with ⟨k, v⟩
    by_cases h : k = s
    · subst h
      simp [addScore, lookupTbl, hne, ih]
    · by_cases h2 : k = s2
      · subst h2
        simp [addScore, lookupTbl, h]
      · simp [addScore, lookupTbl, h, h2, ih]

theorem scoreWords_eq (freq : List (List Char × Nat))
    (hfreq : ∀ w, lookupTbl w freq ≠ some 0) (s : List Char)
    (T : List (List Char × Nat)) :
    scoreWords freq s T =
      if singleScore freq s = 0 then T else addScore s (singleScore freq s) T := by
  unfold scoreWords singleScore
  generalize splitWs (lowerStr s) = ws
  induction ws generalizing T with
  | nil => simp
  | cons w ws ih =>
    rw [List.foldl_cons, List.map_cons, List.sum_cons]
    cases hw : lookupTbl w freq with
    | none =>
      simp only [hw]
      rw [ih T]
      simp
    | some f =>
      have hf : f ≠ 0 := fun h0 => hfreq w (by rw [hw, h0])
      simp only [hw]
      rw [ih (addScore s f T)]
      by_cases hsum : (ws.map (fun w => (lookupTbl w freq).getD 0)).sum = 0
      · rw [if_pos hsum, hsum]
        rw [if_neg (by simpa using hf)]
        rfl
      · rw [if_neg hsum, addScore_addScore]
        rw [if_neg (by simp; omega)]
        rfl

theorem bumpFreq_pos (w : List Char) (T : List (List Char × Nat))
    (h : ∀ k v, (k, v) ∈ T → 0 < v) :
    ∀ k v, (k, v) ∈ bumpFreq w T → 0 < v := by
  induction T with
  | nil =>
    intro k v hkv
    simp [bumpFreq] at hkv
    omega
  | cons kv2 T ih =>
    rcases kv2 with ⟨k2, v2⟩
    intro k v hkv
    by_cases he : k2 = w
    · subst he
      simp [bumpFreq] at hkv
      rcases hkv with ⟨_, h2⟩ | h2
      · omega
      · exact h k v (List.mem_cons_of_mem _ h2)
    · simp [bumpFreq, he] at hkv
      rcases hkv with ⟨h2, h3⟩ | h2
      · rw [h3]
        exact h k2 v2 (List.mem_cons_self _ _)
      · exact ih (fun a b hab => h a b (List.mem_cons_of_mem _ hab)) k v h2

theorem buildFreq_pos (S : List (List Char)) (ts : List (List Char)) :
    ∀ k v, (k, v) ∈ buildFreq S ts → 0 < v := by
  unfold buildFreq
  have hgen : ∀ (T : List (List Char × Nat)), (∀ k v, (k, v) ∈ T → 0 < v) →
      ∀ k v, (k, v) ∈ ts.foldl
        (fun tbl w => if isAlnumStr w && !S.contains w then bumpFreq w tbl else tbl) T →
        0 < v := by
    induction ts with
    | nil => intro T hT; exact hT
    | cons w ts ih =>
      intro T hT
      rw [List.foldl_cons]
      by_cases hc : (isAlnumStr w && !S.contains w) = true
      · simp only [hc, if_true]
        exact ih (bumpFreq w T) (bumpFreq_pos w T hT)
      · rw [Bool.not_eq_true] at hc
        simp only [hc, Bool.false_eq_true, if_false]
        exact ih T hT
  exact hgen [] (by simp)

theorem lookupTbl_mem (k : List Char) (T : List (List Char × Nat)) (v : Nat)
    (h : lookupTbl k T = some v) : (k, v) ∈ T := by
  induction T with
  | nil => simp [lookupTbl] at h
  | cons kv T ih =>
    rcases kv with ⟨k2, v2⟩
    by_cases he : k2 = k
    · subst he
      simp [lookupTbl] at h
      rw [← h]
      exact List.mem_cons_self _ _
    · simp [lookupTbl, he] at h
      exact List.mem_cons_of_mem _ (ih h)

theorem wordFreqOf_ne_zero (S : List (List Char)) (t : List Char) :
    ∀ w, lookupTbl w (wordFreqOf S t) ≠ some 0 := by
  intro w h
  have := buildFreq_pos S _ w 0 (lookupTbl_mem w _ 0 h)
  omega

theorem buildScores_lookup (freq : List (List Char × Nat))
    (hfreq : ∀ w, lookupTbl w freq ≠ some 0) :
    ∀ (sents : List (List Char)) (T : List (List Char × Nat)) (s : List Char),
      lookupTbl s (sents.foldl (fun tbl x => scoreWords freq x tbl) T) =
        if sents.count s * singleScore freq s = 0 then lookupTbl s T
        else some ((lookupTbl s T).getD 0 + sents.count s * singleScore freq s) := by
  intro sents
  induction sents with
  | nil => intro T s; simp
  | cons x sents ih =>
    intro T s
    rw [List.foldl_cons, ih, scoreWords_eq freq hfreq x T]
    by_cases hxs : x = s
    · subst hxs
      rw [List.count_cons_self]
      by_cases hσ : singleScore freq x = 0
      · simp [hσ]
      · rw [if_neg hσ, lookupTbl_addScore_self]
        by_cases hc : sents.count x * singleScore freq x = 0
        · have hc0 : sents.count x = 0 := by
            rcases Nat.mul_eq_zero.mp hc with h | h
            · exact h
            · exact absurd h hσ
          rw [if_pos hc]
          rw [if_neg (by rw [hc0]; simpa using hσ)]
          rw [hc0]
          simp
        · rw [if_neg hc]
          rw [if_neg (by
            intro hcon
            rcases Nat.mul_eq_zero.mp hcon with h | h
            · omega
            · exact hσ h)]
          simp only [Option.getD_some]
          have harith : (sents.count x + 1) * singleScore freq x =
              singleScore freq x + sents.count x * singleScore freq x := by ring
          rw [harith, ← Nat.add_assoc]
    · rw [List.count_cons_of_ne (fun h => hxs h.symm)]
      by_cases hσ : singleScore freq x = 0
      · rw [if_pos hσ]
      · rw [if_neg hσ]
        by_cases hc : sents.count s * singleScore freq s = 0
        · rw [if_pos hc, if_pos hc]
          exact lookupTbl_addScore_other x s hxs _ T
        · rw [if_neg hc, if_neg hc, lookupTbl_addScore_other x s hxs _ T]

theorem addScore_keys (s : List Char) (d : Nat) (T : List (List Char × Nat)) :
    (addScore s d T).map Prod.fst =
      if s ∈ T.map Prod.fst then T.map Prod.fst else T.map Prod.fst ++ [s] := by
  induction T with
  | nil => simp [addScore]
  | cons kv T ih =>
    rcases kv with ⟨k, v⟩
    by_cases h : k = s
    · subst h
      simp [addScore]
    · rw [show addScore s d ((k, v) :: T) = (k, v) :: addScore s d T from by
        simp [addScore, h]]
      by_cases hmem : s ∈ T.map Prod.fst
      · rw [List.map_cons, ih, if_pos hmem, List.map_cons]
        rw [if_pos (List.mem_cons_of_mem _ hmem)]
      · rw [List.map_cons, ih, if_neg hmem, List.map_cons]
        rw [if_neg (by
          intro hcon
          rcases List.mem_cons.mp hcon with h4 | h4
          · exact h h4.symm
          · exact hmem h4)]
        rfl

theorem addScore_keys_nodup (s : List Char) (d : Nat) (T : List (List Char × Nat))
    (h : (T.map Prod.fst).Nodup) : ((addScore s d T).map Prod.fst).Nodup := by
  rw [addScore_keys]
  by_cases hmem : s ∈ T.map Prod.fst
  · rw [if_pos hmem]; exact h
  · rw [if_neg hmem]
    rw [List.nodup_append]
    refine ⟨h, List.nodup_singleton s, ?_⟩
    intro a ha hb
    simp at hb
    rw [hb] at ha
    exact hmem ha

theorem scoreWords_keys_nodup (freq : List (List Char × Nat)) (s : List Char)
    (T : List (List Char × Nat)) (h : (T.map Prod.fst).Nodup) :
    ((scoreWords freq s T).map Prod.fst).Nodup := by
  unfold scoreWords
  generalize splitWs (lowerStr s) = ws
  induction ws generalizing T with
  | nil => exact h
  | cons w ws ih =>
    rw [List.foldl_cons]
    cases hw : lookupTbl w freq with
    | none => simp only [hw]; exact ih T h
    | some f => simp only [hw]; exact ih _ (addScore_keys_nodup s f T h)

theorem sentScores_keys_nodup (S : List (List Char)) (t : List Char) :
    ((sentScoresOf S t).map Prod.fst).Nodup := by
  unfold sentScoresOf buildScores
  have hgen : ∀ (sents : List (List Char)) (T : List (List Char × Nat)),
      (T.map Prod.fst).Nodup →
      ((sents.foldl (fun tbl s => scoreWords (wordFreqOf S t) s tbl) T).map
        Prod.fst).Nodup := by
    intro sents
    induction sents with
    | nil => intro T h; exact h
    | cons x sents ih =>
      intro T h
      rw [List.foldl_cons]
      exact ih _ (scoreWords_keys_nodup _ x T h)
  exact hgen _ [] (by simp)

/-- C10: duplicate sentence strings share one score-table entry whose
value accumulates every occurrence — the table's value at `s` is
`count(s) * singleScore(s)` (and the entry is absent exactly when that
product is zero) — the table's keys are pairwise distinct, and on the
normal path the list of sentences the summary joins contains each
sentence string at most once. -/
theorem C10_dedup (S : List (List Char)) (t : List Char) (n : Nat)
    (hlen : n < (simple_tokenize t).length) :
    ((sentScoresOf S t).map Prod.fst).Nodup ∧
    (∀ s, lookupTbl s (sentScoresOf S t) =
      if (simple_tokenize (clean_text t)).count s * singleScore (wordFreqOf S t) s = 0
      then none
      else some ((simple_tokenize (clean_text t)).count s *
        singleScore (wordFreqOf S t) s)) ∧
    ∃ L, summarize_text (.ok S) t n = joinSpace L ∧ L.Nodup := by
  refine ⟨sentScores_keys_nodup S t, ?_, ?_⟩
  · intro s
    have h := buildScores_lookup (wordFreqOf S t) (wordFreqOf_ne_zero S t)
      (simple_tokenize (clean_text t)) [] s
    unfold sentScoresOf buildScores
    rw [h]
    simp [lookupTbl]
  · refine ⟨((sortScores (sentScoresOf S t)).take n).map Prod.fst, ?_, ?_⟩
    · unfold summarize_text
      rw [if_neg (by rw [tokenize_len_eq]; omega)]
    · have hperm : ((sortScores (sentScoresOf S t)).map Prod.fst).Perm
          ((sentScoresOf S t).map Prod.fst) := (sortScores_perm _).map Prod.fst
      have hkeys : ((sortScores (sentScoresOf S t)).map Prod.fst).Nodup :=
        hperm.symm.nodup (sentScores_keys_nodup S t)
      rw [List.map_take]
      exact hkeys.sublist (List.take_sublist n _)

theorem C10_dedup_witness :
    1 < (simple_tokenize exText).length ∧
    (((sentScoresOf exS exText).map Prod.fst).Nodup ∧
    (∀ s, lookupTbl s (sentScoresOf exS exText) =
      if (simple_tokenize (clean_text exText)).count s *
          singleScore (wordFreqOf exS exText) s = 0
      then none
      else some ((simple_tokenize (clean_text exText)).count s *
        singleScore (wordFreqOf exS exText) s)) ∧
    ∃ L, summarize_text (.ok exS) exText 1 = joinSpace L ∧ L.Nodup) :=
  ⟨by decide, C10_dedup exS exText 1 (by decide)⟩

/-! ### The tokenizer splits exactly at terminal-punctuation + whitespace -/

theorem noSplitPoint_snoc (l : List Char) (a b : Char)
    (h : noSplitPoint (l ++ [a]) = true) (hab : (isTerm a && isSpace b) = false) :
    noSplitPoint ((l ++ [a]) ++ [b]) = true := by
  rw [noSplitPoint_iff_chain, List.chain'_append]
  refine ⟨(noSplitPoint_iff_chain (l ++ [a])).mp h, List.chain'_singleton _, ?_⟩
  intro x hx y hy
  have hxa : x = a := by
    have h1 : (l ++ [a]).getLast? = some x := Option.mem_def.mp hx
    rw [List.getLast?_concat] at h1
    exact (Option.some.injEq _ _ ▸ h1).symm
  have hyb : y = b := by
    have h1 : ([b] : List Char).head? = some y := Option.mem_def.mp hy
    simp at h1
    exact h1.symm
  rw [hxa, hyb, hab]
  rfl

theorem splitSent_chunks_aux (N : Nat) :
    ∀ rem : List Char, ∀ prev : Char, ∀ acc : List Char, rem.length ≤ N →
      noSplitPoint (acc.reverse ++ [prev]) = true →
      ChunksOk (acc.reverse ++ prev :: rem) (splitLoop rem prev acc false) := by
  induction N with
  | zero =>
    intro rem prev acc hlen hinv
    rw [List.length_eq_zero.mp (Nat.le_zero.mp hlen)]
    show ChunksOk (acc.reverse ++ [prev]) [(prev :: acc).reverse]
    rw [show ((prev :: acc).reverse : List Char) = acc.reverse ++ [prev] from by simp]
    exact ⟨rfl, hinv⟩
  | succ N ih =>
    intro rem prev acc hlen hinv
    cases rem with
    | nil =>
      show ChunksOk (acc.reverse ++ [prev]) [(prev :: acc).reverse]
      rw [show ((prev :: acc).reverse : List Char) = acc.reverse ++ [prev] from by simp]
      exact ⟨rfl, hinv⟩
    | cons d rest =>
      have hrestlen : rest.length ≤ N := by
        rw [List.length_cons] at hlen
        omega
      by_cases hsp : (isTerm prev && isSpace d) = true
      · -- a split point: emit the piece, skip the whitespace run
        have hdws : isSpace d = true := ((Bool.and_eq_true _ _).mp hsp).2
        have hpterm : isTerm prev = true := ((Bool.and_eq_true _ _).mp hsp).1
        obtain ⟨w2, s4, hrest, hw2ws, hs4head⟩ :
            ∃ w2 s4, rest = w2 ++ s4 ∧ (∀ x ∈ w2, isSpace x = true) ∧
              (∀ x, s4.head? = some x → isSpace x = false) :=
          ⟨rest.takeWhile isSpace, rest.dropWhile isSpace,
            (List.takeWhile_append_dropWhile isSpace rest).symm,
            fun x hx => List.mem_takeWhile_imp hx,
            fun x hx => dropWhile_head_not isSpace rest x hx⟩
        have hLoop : splitLoop (d :: rest) prev acc false =
            (acc.reverse ++ [prev]) :: splitSent s4 := by
          rw [show splitLoop (d :: rest) prev acc false =
            (prev :: acc).reverse :: splitLoop rest d [] true from by simp [splitLoop, hsp]]
          rw [show rest = w2 ++ s4 from hrest]
          rw [splitLoop_skip_toSent w2 d s4 hw2ws hs4head]
          simp
        rw [hLoop]
        have hrec : ChunksOk s4 (splitSent s4) := by
          cases s4 with
          | nil => exact ⟨rfl, rfl⟩
          | cons c4 s5 =>
            have hc4 : isSpace c4 = false := hs4head c4 rfl
            have hlen5 : s5.length ≤ N := by
              have h7 : (c4 :: s5 : List Char).length ≤ rest.length := by
                rw [hrest]
                simp
              rw [List.length_cons] at h7
              omega
            have h8 := ih s5 c4 [] hlen5 (by rfl)
            simpa using h8
        cases hps : splitSent s4 with
        | nil =>
          rw [hps] at hrec
          exact absurd hrec (by simp [ChunksOk])
        | cons q qs =>
          rw [hps] at hrec
          show ChunksOk (acc.reverse ++ prev :: d :: rest)
            ((acc.reverse ++ [prev]) :: q :: qs)
          refine ⟨hinv, ⟨prev, by rw [List.getLast?_concat], hpterm⟩,
            d :: w2, s4, ?_, by simp, ?_, hs4head, hrec⟩
          · rw [hrest]
            simp
          · intro x hx
            rcases List.mem_cons.mp hx with h | h
            · rw [h]; exact hdws
            · exact hw2ws x h
      · -- not a split point: the character joins the current piece
        rw [Bool.not_eq_true] at hsp
        rw [show splitLoop (d :: rest) prev acc false =
          splitLoop rest d (prev :: acc) false from by simp [splitLoop, hsp]]
        have hinv2 : noSplitPoint ((prev :: acc).reverse ++ [d]) = true := by
          rw [show ((prev :: acc).reverse : List Char) = acc.reverse ++ [prev] from by simp]
          exact noSplitPoint_snoc acc.reverse prev d hinv hsp
        have h9 := ih rest d (prev :: acc) hrestlen hinv2
        rw [show ((prev :: acc).reverse ++ d :: rest : List Char) =
          acc.reverse ++ prev :: d :: rest from by simp] at h9
        exact h9

theorem splitSent_chunks (u : List Char) : ChunksOk u (splitSent u) := by
  cases u with
  | nil => exact ⟨rfl, rfl⟩
  | cons c rest =>
    have h := splitSent_chunks_aux rest.length rest c [] (Nat.le_refl _) (by rfl)
    simpa using h

/-- C8: the tokenizer's output pieces decompose the cleaned text exactly
(`ChunksOk`): pieces appear in original text order, consecutive pieces
are separated by a non-empty whitespace run immediately preceded by a
terminal punctuation character that stays attached to the earlier piece,
the run is maximal, and no piece has an internal terminal-punctuation +
whitespace position (hence two adjacent terminal marks with no
whitespace between them are never split apart); `simple_tokenize`
returns those pieces stripped with empties dropped, so every element is
non-empty with no leading or trailing whitespace. -/
theorem C8_tokenize (t : List Char) :
    ChunksOk (clean_text t) (splitSent (clean_text t)) ∧
    simple_tokenize t =
      ((splitSent (clean_text t)).map stripChars).filter (fun p => !p.isEmpty) ∧
    (∀ s ∈ simple_tokenize t, s ≠ [] ∧
      (∀ c, s.head? = some c → isSpace c = false) ∧
      (∀ c, s.getLast? = some c → isSpace c = false)) := by
  refine ⟨splitSent_chunks _, rfl, ?_⟩
  intro s hs
  unfold simple_tokenize at hs
  rcases List.mem_filter.mp hs with ⟨hmem, hne⟩
  rcases List.mem_map.mp hmem with ⟨p, _, hsp⟩
  have hne2 : s ≠ [] := by
    intro h0
    rw [h0] at hne
    simp at hne
  refine ⟨hne2, ?_, ?_⟩
  · intro c hc
    rw [← hsp] at hc
    exact stripChars_head_not p c hc
  · intro c hc
    rw [← hsp] at hc
    exact stripChars_getLast_not p c hc

theorem chunks_piece_infix :
    ∀ (ps : List (List Char)) (u : List Char), ChunksOk u ps → ∀ p ∈ ps, p <:+: u := by
  intro ps
  induction ps with
  | nil => intro u hu; exact absurd hu (by simp [ChunksOk])
  | cons p1 ps ih =>
    intro u hu p hp
    cases ps with
    | nil =>
      rcases hu with ⟨hu1, _⟩
      have hp1 : p = p1 := by simpa using hp
      rw [hp1, hu1]
    | cons q qs =>
      rcases hu with ⟨_, _, w, rest, hu1, _, _, _, hrec⟩
      rcases List.mem_cons.mp hp with h | h
      · rw [h, hu1]
        exact ⟨[], w ++ rest, by simp⟩
      · have h2 : p <:+: rest := ih rest hrec p h
        rcases h2 with ⟨l2, r2, h3⟩
        exact ⟨p1 ++ w ++ l2, r2, by rw [hu1, ← h3]; simp⟩

/-! ### Substring structure of the summary (support for the
no-fabricated-content property) -/

theorem withinOfPre {l1 l2 : List Char} (h : l1 <+: l2) : l1 <:+: l2 := by
  rcases h with ⟨t, ht⟩
  exact ⟨[], t, by simp [ht]⟩

theorem withinOfSuf {l1 l2 : List Char} (h : l1 <:+ l2) : l1 <:+: l2 := by
  rcases h with ⟨s, hs⟩
  exact ⟨s, [], by simp [hs]⟩

theorem withinCons {l1 l2 : List Char} (c : Char) (h : l1 <:+: l2) :
    l1 <:+: (c :: l2) := by
  rcases h with ⟨s, t, hst⟩
  exact ⟨c :: s, t, by simp [hst]⟩

theorem stripChars_within (l : List Char) : stripChars l <:+: l := by
  rcases (List.dropWhile_suffix isSpace : (l.dropWhile isSpace) <:+ l) with ⟨s1, hs1⟩
  rcases (List.dropWhile_suffix isSpace :
      ((l.dropWhile isSpace).reverse.dropWhile isSpace) <:+
        (l.dropWhile isSpace).reverse) with ⟨s2, hs2⟩
  refine ⟨s1, s2.reverse, ?_⟩
  have h3 := congrArg List.reverse hs2
  rw [List.reverse_append, List.reverse_reverse] at h3
  show s1 ++ stripChars l ++ s2.reverse = l
  unfold stripChars
  rw [List.append_assoc, h3, hs1]

theorem splitWsAux_piece_within (s : List Char) :
    ∀ acc b, b ∈ splitWsAux s acc → b <:+: (acc.reverse ++ s) := by
  induction s with
  | nil =>
    intro acc b hb
    cases acc with
    | nil => simp [splitWsAux] at hb
    | cons a l =>
      simp [splitWsAux] at hb
      rw [hb]
      exact ⟨[], [], by simp⟩
  | cons c rest ih =>
    intro acc b hb
    by_cases hc : isSpace c = true
    · cases acc with
      | nil =>
        simp [splitWsAux, hc] at hb
        exact withinCons c (by simpa using ih [] b hb)
      | cons a l =>
        simp [splitWsAux, hc] at hb
        rcases hb with hb | hb
        · rw [hb]
          exact ⟨[], c :: rest, by simp⟩
        · have h2 : b <:+: rest := by simpa using ih [] b hb
          rcases h2 with ⟨l2, r2, h3⟩
          exact ⟨(a :: l).reverse ++ c :: l2, r2, by rw [← h3]; simp⟩
    · rw [Bool.not_eq_true] at hc
      simp only [splitWsAux, hc, Bool.false_eq_true, if_false] at hb
      have h2 := ih (c :: acc) b hb
      rw [show ((c :: acc).reverse ++ rest : List Char) = acc.reverse ++ c :: rest
        from by simp] at h2
      exact h2

theorem splitWs_piece_within (s : List Char) (b : List Char) (hb : b ∈ splitWs s) :
    b <:+: s := by
  have h := splitWsAux_piece_within s [] b hb
  simpa using h

theorem pairOk_iff_chain (l : List Char) :
    pairOk l = true ↔
      List.Chain' (fun c d => (!isSpace c || (decide (c = ' ') && !isSpace d)) = true) l := by
  match l with
  | [] => simp [pairOk]
  | [c] => simp [pairOk]
  | c :: d :: rest =>
    rw [show pairOk (c :: d :: rest) =
      ((!isSpace c || (decide (c = ' ') && !isSpace d)) && pairOk (d :: rest)) from rfl]
    rw [Bool.and_eq_true, List.chain'_cons, pairOk_iff_chain (d :: rest)]

theorem pairOk_of_all_nonws (l : List Char) (h : ∀ c ∈ l, isSpace c = false) :
    pairOk l = true := by
  rw [pairOk_iff_chain]
  match l with
  | [] => exact List.chain'_nil
  | [c] => exact List.chain'_singleton c
  | c :: d :: rest =>
    rw [List.chain'_cons]
    refine ⟨by rw [h c (List.mem_cons_self _ _)]; rfl, ?_⟩
    rw [← pairOk_iff_chain]
    exact pairOk_of_all_nonws (d :: rest) (fun x hx => h x (List.mem_cons_of_mem _ hx))

theorem pairOk_append_right (xs ys : List Char) (h : pairOk (xs ++ ys) = true) :
    pairOk ys = true := by
  rw [pairOk_iff_chain] at h ⊢
  exact ((List.chain'_append.mp h).2).1

theorem pairOk_within (x v : List Char) (hx : x <:+: v) (hv : pairOk v = true) :
    pairOk x = true := by
  rcases hx with ⟨s, t, hst⟩
  rw [pairOk_iff_chain] at hv ⊢
  rw [← hst, List.append_assoc] at hv
  have h1 := ((List.chain'_append.mp hv).2).1
  exact (List.chain'_append.mp h1).1

theorem joinSpace_head (x : Char) (q2 : List Char) (qs : List (List Char)) :
    (joinSpace ((x :: q2) :: qs)).head? = some x := by
  cases qs with
  | nil => rfl
  | cons r rs => rfl

theorem pairOk_joinSpace (ps : List (List Char))
    (h : ∀ b ∈ ps, b ≠ [] ∧ ∀ c ∈ b, isSpace c = false) :
    pairOk (joinSpace ps) = true := by
  induction ps with
  | nil => rfl
  | cons p ps ih =>
    cases ps with
    | nil => exact pairOk_of_all_nonws p (h p (List.mem_cons_self _ _)).2
    | cons q qs =>
      rw [show joinSpace (p :: q :: qs) = p ++ ' ' :: joinSpace (q :: qs) from rfl]
      rw [pairOk_iff_chain, List.chain'_append]
      refine ⟨?_, ?_, ?_⟩
      · rw [← pairOk_iff_chain]
        exact pairOk_of_all_nonws p (h p (List.mem_cons_self _ _)).2
      · rw [List.chain'_cons']
        constructor
        · intro y hy
          rcases h q (List.mem_cons_of_mem _ (List.mem_cons_self _ _)) with ⟨hqne, hqnw⟩
          cases q with
          | nil => exact absurd rfl hqne
          | cons x q2 =>
            have hyx : y = x := by
              have h1 := Option.mem_def.mp hy
              rw [joinSpace_head x q2 qs] at h1
              simpa using h1.symm
            rw [hyx, hqnw x (List.mem_cons_self _ _)]
            rfl
        · rw [← pairOk_iff_chain]
          exact ih (fun b hb => h b (List.mem_cons_of_mem _ hb))
      · intro x hx y hy
        have hyy : y = ' ' := by
          have h1 := Option.mem_def.mp hy
          simpa using h1.symm
        have hxp : x ∈ p := by
          have h1 : p.getLast? = some x := Option.mem_def.mp hx
          rcases List.getLast?_eq_some_iff.mp h1 with ⟨ys, hys⟩
          rw [hys]
          exact List.mem_append_right _ (List.mem_cons_self _ _)
        rw [hyy, (h p (List.mem_cons_self _ _)).2 x hxp]
        rfl

theorem joinSpace_cons_ne (w : List Char) (L : List (List Char)) (hL : L ≠ []) :
    joinSpace (w :: L) = w ++ ' ' :: joinSpace L := by
  cases L with
  | nil => exact absurd rfl hL
  | cons a l => rfl

theorem getLast_append_ne (l1 l2 : List Char) (h : l2 ≠ []) :
    (l1 ++ l2).getLast? = l2.getLast? := by
  rw [List.getLast?_append]
  cases hg : l2.getLast? with
  | none => exact absurd (List.getLast?_eq_none_iff.mp hg) h
  | some z => rfl

theorem pairOk_step (e f : Char) (rest3 : List Char)
    (h : pairOk (e :: f :: rest3) = true) (he : isSpace e = true) :
    e = ' ' ∧ isSpace f = false := by
  rw [show pairOk (e :: f :: rest3) =
    ((!isSpace e || (decide (e = ' ') && !isSpace f)) && pairOk (f :: rest3))
      from rfl] at h
  have h1 := ((Bool.and_eq_true _ _).mp h).1
  rw [he] at h1
  simp at h1
  exact h1

theorem collapse_fixed_bounded (M : Nat) :
    ∀ x : List Char, x.length ≤ M → x ≠ [] →
      (∀ c, x.head? = some c → isSpace c = false) →
      (∀ c, x.getLast? = some c → isSpace c = false) →
      pairOk x = true →
      joinSpace (splitWs x) = x := by
  induction M with
  | zero =>
    intro x hlen hne _ _ _
    exact absurd (List.length_eq_zero.mp (Nat.le_zero.mp hlen)) hne
  | succ M ih =>
    intro x hlen hne hhead hlast hpair
    cases x with
    | nil => exact absurd rfl hne
    | cons c v =>
      have hc : isSpace c = false := hhead c rfl
      obtain ⟨B2, rest, hv, hB2, hresthead⟩ :
          ∃ B2 rest, v = B2 ++ rest ∧ (∀ y ∈ B2, isSpace y = false) ∧
            (∀ y, rest.head? = some y → isSpace y = true) := by
        refine ⟨v.takeWhile (fun y => !isSpace y), v.dropWhile (fun y => !isSpace y),
          (List.takeWhile_append_dropWhile _ v).symm, ?_, ?_⟩
        · intro y hy
          have h00 := List.mem_takeWhile_imp hy
          have h0 : (!isSpace y) = true := h00
          cases hw2 : isSpace y
          · rfl
          · rw [hw2] at h0; exact absurd h0 (by simp)
        · intro y hy
          have h00 := dropWhile_head_not (fun y => !isSpace y) v y hy
          have h0 : (!isSpace y) = false := h00
          cases hw2 : isSpace y
          · rw [hw2] at h0; exact absurd h0 (by simp)
          · rfl
      have hBnw : ∀ y ∈ c :: B2, isSpace y = false := by
        intro y hy
        rcases List.mem_cons.mp hy with h | h
        · rw [h]; exact hc
        · exact hB2 y h
      cases rest with
      | nil =>
        have hx : (c :: v : List Char) = c :: B2 := by rw [hv, List.append_nil]
        rw [hx, splitWs_block (c :: B2) (by simp) hBnw]
        rfl
      | cons e rest2 =>
        have he : isSpace e = true := hresthead e rfl
        cases rest2 with
        | nil =>
          exfalso
          have hlx : (c :: v : List Char).getLast? = some e := by
            rw [hv]
            rw [show (c :: (B2 ++ [e]) : List Char) = (c :: B2) ++ [e] from rfl]
            exact List.getLast?_concat _
          have h5 := hlast e hlx
          rw [h5] at he
          exact Bool.noConfusion he
        | cons f rest3 =>
          have hxeq : (c :: v : List Char) = (c :: B2) ++ e :: (f :: rest3) := by
            rw [hv]
            rfl
          have hpk : pairOk (e :: f :: rest3) = true := by
            apply pairOk_append_right (c :: B2)
            rw [← hxeq]
            exact hpair
          rcases pairOk_step e f rest3 hpk he with ⟨hesp, hfnw⟩
          have hs1 : splitWs (c :: v) = (c :: B2) :: splitWs (e :: f :: rest3) := by
            rw [hxeq]
            exact splitWs_block_ws (c :: B2) _ (by simp) hBnw
              (fun y hy => by
                have h9 : e = y := by simpa using hy
                rw [← h9]; exact he)
          have hs2 : splitWs (e :: f :: rest3) = splitWs (f :: rest3) := by
            rw [show (e :: f :: rest3 : List Char) = [e] ++ f :: rest3 from rfl]
            exact splitWs_ws_left [e] _
              (by intro y hy; simp at hy; rw [hy]; exact he)
          have hrlen : (f :: rest3 : List Char).length ≤ M := by
            have hb : v.length = B2.length + (2 + rest3.length) := by
              rw [hv]
              simp [List.length_append]
              omega
            have hxl : (c :: v : List Char).length ≤ M + 1 := hlen
            rw [List.length_cons] at hxl
            rw [List.length_cons]
            omega
          have hrec : joinSpace (splitWs (f :: rest3)) = f :: rest3 := by
            apply ih (f :: rest3) hrlen (by simp)
            · intro y hy
              have h9 : y = f := by simpa using hy.symm
              rw [h9]
              exact hfnw
            · intro y hy
              apply hlast y
              rw [hxeq, getLast_append_ne _ _ (by simp)]
              rw [show (e :: f :: rest3 : List Char) = [e] ++ f :: rest3 from rfl]
              rw [getLast_append_ne _ _ (by simp)]
              exact hy
            · exact pairOk_append_right [e] (f :: rest3) hpk
          rw [hs1, hs2, joinSpace_cons_ne _ _ (splitWs_cons_ne_nil f rest3 hfnw), hrec]
          rw [hxeq, hesp]

theorem prefix_takeWhile (q : Char → Bool) :
    ∀ (b l : List Char), b <+: l → (∀ x ∈ b, q x = true) → b <+: l.takeWhile q := by
  intro b
  induction b with
  | nil => intro l _ _; exact ⟨l.takeWhile q, by simp⟩
  | cons x b2 ih =>
    intro l hpre hq
    rcases hpre with ⟨t, ht⟩
    cases l with
    | nil => simp at ht
    | cons y l2 =>
      have h0 : x :: (b2 ++ t) = y :: l2 := ht
      injection h0 with h1 h2
      rw [← h1]
      rw [List.takeWhile_cons, if_pos (hq x (List.mem_cons_self _ _))]
      have h3 : b2 <+: l2.takeWhile q :=
        ih l2 ⟨t, h2⟩ (fun z hz => hq z (List.mem_cons_of_mem _ hz))
      rcases h3 with ⟨t2, ht2⟩
      exact ⟨t2, by rw [show ((x :: b2) ++ t2 : List Char) = x :: (b2 ++ t2) from rfl,
        ht2]⟩

theorem takeWhile_all_append (q : Char → Bool) :
    ∀ (T rest : List Char), (∀ x ∈ T, q x = true) →
      (∀ y, rest.head? = some y → q y = false) →
      (T ++ rest).takeWhile q = T := by
  intro T
  induction T with
  | nil =>
    intro rest _ hrest
    cases rest with
    | nil => rfl
    | cons y r2 =>
      show (y :: r2).takeWhile q = []
      rw [List.takeWhile_cons, if_neg (by rw [hrest y rfl]; simp)]
  | cons x T2 ih =>
    intro rest hT hrest
    rw [show ((x :: T2) ++ rest : List Char) = x :: (T2 ++ rest) from rfl]
    rw [List.takeWhile_cons, if_pos (hT x (List.mem_cons_self _ _))]
    rw [ih rest (fun z hz => hT z (List.mem_cons_of_mem _ hz)) hrest]

theorem block_within_bounded (M : Nat) :
    ∀ v b : List Char, v.length ≤ M → b ≠ [] → (∀ c ∈ b, isSpace c = false) →
      b <:+: v → ∃ B ∈ splitWs v, b <:+: B := by
  induction M with
  | zero =>
    intro v b hlen hne _ hb
    rw [List.length_eq_zero.mp (Nat.le_zero.mp hlen)] at hb
    rcases hb with ⟨s, t, hst⟩
    rcases List.append_eq_nil.mp hst with ⟨h1, _⟩
    rcases List.append_eq_nil.mp h1 with ⟨_, h2⟩
    exact absurd h2 hne
  | succ M ih =>
    intro v b hlen hne hnw hb
    cases v with
    | nil =>
      rcases hb with ⟨s, t, hst⟩
      rcases List.append_eq_nil.mp hst with ⟨h1, _⟩
      rcases List.append_eq_nil.mp h1 with ⟨_, h2⟩
      exact absurd h2 hne
    | cons c v2 =>
      have hlen2 : v2.length ≤ M := by
        rw [List.length_cons] at hlen
        omega
      by_cases hc : isSpace c = true
      · rcases List.infix_cons_iff.mp hb with hpre | hinf
        · exfalso
          cases b with
          | nil => exact hne rfl
          | cons x b2 =>
            rcases hpre with ⟨t, ht⟩
            have h0 : x :: (b2 ++ t) = c :: v2 := ht
            injection h0 with h1 _
            rw [← h1] at hc
            rw [hnw x (List.mem_cons_self _ _)] at hc
            exact Bool.noConfusion hc
        · rcases ih v2 b hlen2 hne hnw hinf with ⟨B, hB, hbB⟩
          refine ⟨B, ?_, hbB⟩
          rw [show (c :: v2 : List Char) = [c] ++ v2 from rfl,
            splitWs_ws_left [c] v2 (by intro y hy; simp at hy; rw [hy]; exact hc)]
          exact hB
      · rw [Bool.not_eq_true] at hc
        obtain ⟨T2, rest, hv2, hT2, hresthead⟩ :
            ∃ T2 rest, v2 = T2 ++ rest ∧ (∀ y ∈ T2, isSpace y = false) ∧
              (∀ y, rest.head? = some y → isSpace y = true) := by
          refine ⟨v2.takeWhile (fun y => !isSpace y), v2.dropWhile (fun y => !isSpace y),
            (List.takeWhile_append_dropWhile _ v2).symm, ?_, ?_⟩
          · intro y hy
            have h00 := List.mem_takeWhile_imp hy
            have h0 : (!isSpace y) = true := h00
            cases hw2 : isSpace y
            · rfl
            · rw [hw2] at h0; exact absurd h0 (by simp)
          · intro y hy
            have h00 := dropWhile_head_not (fun y => !isSpace y) v2 y hy
            have h0 : (!isSpace y) = false := h00
            cases hw2 : isSpace y
            · rw [hw2] at h0; exact absurd h0 (by simp)
            · rfl
        have hsw : splitWs (c :: v2) = (c :: T2) :: splitWs rest := by
          rw [show (c :: v2 : List Char) = (c :: T2) ++ rest from by rw [hv2]; rfl]
          exact splitWs_block_ws (c :: T2) rest (by simp)
            (by
              intro y hy
              rcases List.mem_cons.mp hy with h | h
              · rw [h]; exact hc
              · exact hT2 y h)
            hresthead
        rcases List.infix_cons_iff.mp hb with hpre | hinf
        · have h2 : b <+: (c :: v2).takeWhile (fun y => !isSpace y) :=
            prefix_takeWhile _ b (c :: v2) hpre (fun x hx => by rw [hnw x hx]; rfl)
          have h3 : (c :: v2).takeWhile (fun y => !isSpace y) = c :: T2 := by
            rw [List.takeWhile_cons, if_pos (by rw [hc]; rfl)]
            rw [hv2, takeWhile_all_append _ T2 rest
              (fun x hx => by rw [hT2 x hx]; rfl)
              (fun y hy => by rw [hresthead y hy]; rfl)]
          rw [hsw]
          exact ⟨c :: T2, List.mem_cons_self _ _, withinOfPre (h3 ▸ h2)⟩
        · rcases ih v2 b hlen2 hne hnw hinf with ⟨B, hB, hbB⟩
          cases hT2m : T2 with
          | nil =>
            have hv2r : v2 = rest := by
              rw [hv2, hT2m]
              rfl
            rw [hsw]
            refine ⟨B, List.mem_cons_of_mem _ ?_, hbB⟩
            rw [hv2r] at hB
            exact hB
          | cons x T3 =>
            have hsw2 : splitWs v2 = (x :: T3) :: splitWs rest := by
              rw [hv2, hT2m]
              exact splitWs_block_ws (x :: T3) rest (by simp)
                (fun y hy => hT2 y (by rw [hT2m]; exact hy)) hresthead
            rw [hsw2] at hB
            rcases List.mem_cons.mp hB with h4 | h4
            · rw [hsw]
              refine ⟨c :: T2, List.mem_cons_self _ _, ?_⟩
              rw [hT2m]
              rw [h4] at hbB
              exact withinCons c hbB
            · rw [hsw]
              exact ⟨B, List.mem_cons_of_mem _ h4, hbB⟩

theorem joinSpace_append_ne (as bs : List (List Char)) (ha : as ≠ []) (hb : bs ≠ []) :
    joinSpace (as ++ bs) = joinSpace as ++ ' ' :: joinSpace bs := by
  induction as with
  | nil => exact absurd rfl ha
  | cons a as2 ih =>
    cases as2 with
    | nil =>
      rw [show ([a] ++ bs : List (List Char)) = a :: bs from rfl]
      rw [joinSpace_cons_ne a bs hb]
      rfl
    | cons a2 as3 =>
      rw [show ((a :: a2 :: as3) ++ bs : List (List Char)) =
        a :: ((a2 :: as3) ++ bs) from rfl]
      rw [joinSpace_cons_ne a _ (by simp)]
      rw [ih (by simp)]
      rw [joinSpace_cons_ne a (a2 :: as3) (by simp)]
      simp

theorem joinSpace_flatMap :
    ∀ sel : List (List Char),
      (∀ s ∈ sel, splitWs s ≠ [] ∧ joinSpace (splitWs s) = s) →
      joinSpace (sel.flatMap splitWs) = joinSpace sel := by
  intro sel
  induction sel with
  | nil => intro _; rfl
  | cons s sel2 ih =>
    intro h
    rcases h s (List.mem_cons_self _ _) with ⟨hne, hjoin⟩
    cases sel2 with
    | nil =>
      show joinSpace (splitWs s ++ [].flatMap splitWs) = joinSpace [s]
      rw [show (([] : List (List Char)).flatMap splitWs) = [] from rfl,
        List.append_nil, hjoin]
      rfl
    | cons s2 sel3 =>
      show joinSpace (splitWs s ++ (s2 :: sel3).flatMap splitWs) =
        joinSpace (s :: s2 :: sel3)
      have h2 : (s2 :: sel3).flatMap splitWs ≠ [] := by
        rcases h s2 (List.mem_cons_of_mem _ (List.mem_cons_self _ _)) with ⟨hne2, _⟩
        cases hsp : splitWs s2 with
        | nil => exact absurd hsp hne2
        | cons bb bs => simp [List.flatMap_cons, hsp]
      rw [joinSpace_append_ne _ _ hne h2]
      rw [hjoin]
      rw [ih (fun z hz => h z (List.mem_cons_of_mem _ hz))]
      rw [joinSpace_cons_ne s (s2 :: sel3) (by simp)]

theorem sentence_blocks (t : List Char) (s : List Char)
    (hs : s ∈ simple_tokenize (clean_text t)) :
    splitWs s ≠ [] ∧ joinSpace (splitWs s) = s ∧
      ∀ b ∈ splitWs s, b <:+: clean_text t := by
  unfold simple_tokenize at hs
  rcases List.mem_filter.mp hs with ⟨hmem, hneb⟩
  rcases List.mem_map.mp hmem with ⟨p, hp, hsp⟩
  have hne : s ≠ [] := by
    intro h0
    rw [h0] at hneb
    simp at hneb
  have hhead : ∀ c, s.head? = some c → isSpace c = false := by
    intro c hc
    rw [← hsp] at hc
    exact stripChars_head_not p c hc
  have hlast : ∀ c, s.getLast? = some c → isSpace c = false := by
    intro c hc
    rw [← hsp] at hc
    exact stripChars_getLast_not p c hc
  have hwithin : s <:+: collapseWs (clean_text t) := by
    have h1 : p <:+: clean_text (clean_text t) :=
      chunks_piece_infix _ _ (splitSent_chunks (clean_text (clean_text t))) p hp
    rw [clean_text_twice] at h1
    have h2 : s <:+: p := by
      rw [← hsp]
      exact stripChars_within p
    exact h2.trans h1
  have hpair : pairOk s = true :=
    pairOk_within s _ hwithin (pairOk_joinSpace _ (splitWs_blocks (clean_text t)))
  have hfix : joinSpace (splitWs s) = s :=
    collapse_fixed_bounded s.length s (Nat.le_refl _) hne hhead hlast hpair
  have hnen : splitWs s ≠ [] := by
    intro h0
    rw [h0] at hfix
    exact hne hfix.symm
  refine ⟨hnen, hfix, ?_⟩
  intro b hb
  have hbs : b <:+: s := splitWs_piece_within s b hb
  have hbc : b <:+: collapseWs (clean_text t) := hbs.trans hwithin
  rcases splitWs_blocks s b hb with ⟨hbne, hbnw⟩
  rcases block_within_bounded (collapseWs (clean_text t)).length
    (collapseWs (clean_text t)) b (Nat.le_refl _) hbne hbnw hbc with ⟨B, hB, hbB⟩
  have hBs : B ∈ splitWs (clean_text t) := by
    rw [show splitWs (collapseWs (clean_text t)) = splitWs (clean_text t) from
      splitWs_joinSpace _ (splitWs_blocks _)] at hB
    exact hB
  exact hbB.trans (splitWs_piece_within _ B hBs)

theorem addScore_key_cases (s : List Char) (d : Nat) (T : List (List Char × Nat)) :
    ∀ k ∈ (addScore s d T).map Prod.fst, k = s ∨ k ∈ T.map Prod.fst := by
  intro k hk
  rw [addScore_keys] at hk
  by_cases hmem : s ∈ T.map Prod.fst
  · rw [if_pos hmem] at hk
    exact Or.inr hk
  · rw [if_neg hmem] at hk
    rcases List.mem_append.mp hk with h | h
    · exact Or.inr h
    · simp at h
      exact Or.inl h

theorem scoreWords_key_cases (freq : List (List Char × Nat)) (x : List Char) :
    ∀ T k, k ∈ (scoreWords freq x T).map Prod.fst → k = x ∨ k ∈ T.map Prod.fst := by
  unfold scoreWords
  generalize splitWs (lowerStr x) = ws
  induction ws with
  | nil => intro T k hk; exact Or.inr hk
  | cons w ws ih =>
    intro T k hk
    rw [List.foldl_cons] at hk
    cases hw : lookupTbl w freq with
    | none =>
      simp only [hw] at hk
      exact ih T k hk
    | some f =>
      simp only [hw] at hk
      rcases ih _ k hk with h | h
      · exact Or.inl h
      · exact addScore_key_cases x f T k h

theorem buildScores_keys_sub (freq : List (List Char × Nat)) :
    ∀ (sents : List (List Char)) (T : List (List Char × Nat)) (k : List Char),
      k ∈ ((sents.foldl (fun tbl x => scoreWords freq x tbl) T).map Prod.fst) →
      k ∈ sents ∨ k ∈ T.map Prod.fst := by
  intro sents
  induction sents with
  | nil => intro T k hk; exact Or.inr hk
  | cons x sents ih =>
    intro T k hk
    rw [List.foldl_cons] at hk
    rcases ih _ k hk with h | h
    · exact Or.inl (List.mem_cons_of_mem _ h)
    · rcases scoreWords_key_cases freq x T k h with h2 | h2
      · exact Or.inl (by rw [h2]; exact List.mem_cons_self _ _)
      · exact Or.inr h2

theorem sentScores_keys_mem (S : List (List Char)) (t : List Char) :
    ∀ k ∈ (sentScoresOf S t).map Prod.fst, k ∈ simple_tokenize (clean_text t) := by
  intro k hk
  unfold sentScoresOf buildScores at hk
  rcases buildScores_keys_sub (wordFreqOf S t) _ [] k hk with h | h
  · exact h
  · simp at h

theorem summarize_eq_joinSpace (stopRes : Except Unit (List (List Char)))
    (t : List Char) (n : Nat) :
    summarize_text stopRes t n = joinSpace (selectedSents stopRes t n) := by
  unfold summarize_text selectedSents
  by_cases h : (simple_tokenize (clean_text t)).length ≤ n
  · rw [if_pos h, if_pos h]
    rfl
  · rw [if_neg h, if_neg h]
    cases stopRes with
    | error e => rfl
    | ok S => rfl

theorem selectedSents_mem (stopRes : Except Unit (List (List Char))) (t : List Char)
    (n : Nat) (hlen : ¬ (simple_tokenize (clean_text t)).length ≤ n) :
    ∀ s ∈ selectedSents stopRes t n, s ∈ simple_tokenize (clean_text t) := by
  intro s hs
  unfold selectedSents at hs
  rw [if_neg hlen] at hs
  cases stopRes with
  | error e => exact (List.take_sublist n _).subset hs
  | ok S =>
    rcases List.mem_map.mp hs with ⟨kv, hkv, hfst⟩
    apply sentScores_keys_mem S t
    have h1 : kv ∈ sortScores (sentScoresOf S t) := (List.take_sublist n _).subset hkv
    have h2 : kv ∈ sentScoresOf S t := (sortScores_perm _).subset h1
    rw [← hfst]
    exact List.mem_map_of_mem Prod.fst h2

/-- C9 counterexample: on the normal path for `"x - y. z. w."` with
`n = 1` and no stopwords, the selected (and returned) sentence `"x y."`
comes from the re-cleaned text and does NOT occur in
`clean_text t = "x  y. z. w."`, which keeps the double space. -/
theorem C9_cex :
    (lc "x y.") ∈ selectedSents (.ok []) (lc "x - y. z. w.") 1 ∧
    summarize_text (.ok []) (lc "x - y. z. w.") 1 = lc "x y." ∧
    ¬ (lc "x y.") <:+: clean_text (lc "x - y. z. w.") := by decide

/-- C9 (amended): for every stopword outcome, text and `n`, the summary
is a single-space join of a list of substrings of `clean_text t` — no
content is fabricated.  (The stronger sentence-level reading fails: a
whole output sentence need not occur in `clean_text t`, only in the
re-cleaned text; see the counterexample.) -/
theorem C9_substrings (stopRes : Except Unit (List (List Char))) (t : List Char)
    (n : Nat) :
    ∃ L, summarize_text stopRes t n = joinSpace L ∧
      ∀ b ∈ L, b <:+: clean_text t := by
  by_cases hlen : (simple_tokenize (clean_text t)).length ≤ n
  · refine ⟨[clean_text t], ?_, ?_⟩
    · unfold summarize_text
      rw [if_pos hlen]
      rfl
    · intro b hb
      simp at hb
      rw [hb]
  · refine ⟨(selectedSents stopRes t n).flatMap splitWs, ?_, ?_⟩
    · rw [summarize_eq_joinSpace]
      rw [joinSpace_flatMap (selectedSents stopRes t n)
        (fun s hsx => by
          rcases sentence_blocks t s (selectedSents_mem stopRes t n hlen s hsx)
            with ⟨h1, h2, _⟩
          exact ⟨h1, h2⟩)]
    · intro b hb
      rcases List.mem_flatMap.mp hb with ⟨s, hsx, hbx⟩
      exact (sentence_blocks t s (selectedSents_mem stopRes t n hlen s hsx)).2.2 b hbx
